import Mathlib

/-!
Verification of `src/fix_openapi.py`'s `fix_examples` against the spec.

The document tree produced by `yaml.safe_load` is modelled by `Node`:
Python `dict`s become ordered association lists with `String` keys
(Python dicts have unique keys and preserve insertion order; on such
lists the operations below coincide with the Python ones), `list`s
become `List Node`, and the scalars are strings, integers, booleans
and `None`.  Fallible Python operations (`in` on a non-iterable,
`.pop` / `.values` / item assignment on the wrong type) are modelled
in `Except PyError`.
-/

namespace FixOpenapi

/-- A parsed YAML/JSON-like document tree. -/
inductive Node : Type where
  | map  : List (String × Node) → Node
  | seq  : List Node → Node
  | str  : String → Node
  | int  : Int → Node
  | bool : Bool → Node
  | null : Node

/-- The exceptions the Python code can raise while rewriting. -/
inductive PyError : Type where
  | typeError
  | attributeError
  | keyError
deriving Repr, DecidableEq

/-- Keys of a mapping, in order. -/
def keysOf (es : List (String × Node)) : List String := es.map Prod.fst

/-- Python `k in d` for a dict `d`. -/
def hasKey (es : List (String × Node)) (k : String) : Bool :=
  es.any (fun p => p.1 == k)

/-- Python `d[k]` for a dict `d` (first matching entry; total, defaulting
to `null`, but only ever used under a `hasKey` guard, as in the source). -/
def getKey : List (String × Node) → String → Node
  | [], _ => .null
  | p :: rest, k => if p.1 == k then p.2 else getKey rest k

/-- Removal of key `k`, as done by Python `d.pop(k)` on a dict.  On the
unique-key lists that model Python dicts this removes exactly the one
entry for `k`. -/
def eraseKey (es : List (String × Node)) (k : String) : List (String × Node) :=
  es.filter (fun p => !(p.1 == k))

/-- Python `d[k] = v` on a dict: replace the (first) entry for `k` in
place, or append a new entry at the end. -/
def setKey : List (String × Node) → String → Node → List (String × Node)
  | [], k, v => [(k, v)]
  | p :: rest, k, v => if p.1 == k then (k, v) :: rest else p :: setKey rest k v

/-- Is a list of characters an initial segment of another? -/
def isPre : List Char → List Char → Bool
  | [], _ => true
  | _ :: _, [] => false
  | a :: as, b :: bs => a == b && isPre as bs

/-- Does `pat` occur as a contiguous run inside the character list? -/
def hasSub (pat : List Char) : List Char → Bool
  | [] => pat.isEmpty
  | c :: cs => isPre pat (c :: cs) || hasSub pat cs

/-- Python `pat in s` on strings: substring containment. -/
def strIn (pat s : String) : Bool := hasSub pat.data s.data

/-- Python `k in x` for `k` a string literal and `x` an arbitrary value:
key membership for dicts, element equality for lists, substring test for
strings, and `TypeError` for non-iterable scalars. -/
def pyContains (k : String) : Node → Except PyError Bool
  | .map es => .ok (hasKey es k)
  | .seq l  => .ok (l.any (fun x => match x with | .str s => s == k | _ => false))
  | .str s  => .ok (strIn k s)
  | .int _  => .error .typeError
  | .bool _ => .error .typeError
  | .null   => .error .typeError

/-- Python `x.pop(k)` for `k` a string: on a dict, return the value and
the dict without the key (`KeyError` when absent, unreachable in the
source, which pops only after a membership test); a list's `pop` wants
an integer index (`TypeError`); other values have no `pop`
(`AttributeError`). -/
def pyPop (n : Node) (k : String) : Except PyError (Node × Node) :=
  match n with
  | .map es =>
      if hasKey es k then .ok (getKey es k, .map (eraseKey es k))
      else .error .keyError
  | .seq _ => .error .typeError
  | _ => .error .attributeError

/-- Python `x[k] = v` for `k` a string: item assignment is only defined
on dicts (`TypeError` otherwise, lists want integer indices). -/
def pySetItem (n : Node) (k : String) (v : Node) : Except PyError Node :=
  match n with
  | .map es => .ok (.map (setKey es k v))
  | _ => .error .typeError

/-- The loop of lines 14–16 of `fix_openapi.py`: for each value
`content_type` of the `content` dict in order, `if 'schema' in
content_type: content_type['examples'] = examples_value`. -/
def relocate (ev : Node) : List (String × Node) → Except PyError (List (String × Node))
  | [] => .ok []
  | (k, ct) :: rest =>
      match pyContains "schema" ct with
      | .error e => .error e
      | .ok b =>
        match (if b then pySetItem ct "examples" ev else .ok ct) with
        | .error e => .error e
        | .ok ct' =>
          match relocate ev rest with
          | .error e => .error e
          | .ok rest' => .ok ((k, ct') :: rest')

/-- Lines 10–16 of `fix_openapi.py`, the edit applied at a dict node
before recursing: `if 'schema' in data and 'examples' in data['schema']:
examples_value = data['schema'].pop('examples'); if 'content' in data:
for content_type in data['content'].values(): ...`.  `.values()` on a
non-dict raises `AttributeError`. -/
def applyEdit (es : List (String × Node)) : Except PyError (List (String × Node)) :=
  if hasKey es "schema" then
    match pyContains "examples" (getKey es "schema") with
    | .error e => .error e
    | .ok false => .ok es
    | .ok true =>
      match pyPop (getKey es "schema") "examples" with
      | .error e => .error e
      | .ok (ev, sv') =>
        let es' := setKey es "schema" sv'
        if hasKey es' "content" then
          match getKey es' "content" with
          | .map ces =>
            match relocate ev ces with
            | .error e => .error e
            | .ok ces' => .ok (setKey es' "content" (.map ces'))
          | _ => .error .attributeError
        else .ok es'
  else .ok es

/-! ## A termination measure

The recursion of `fix_examples` descends into the values of the dict
*after* the edit, and the edit can copy the detached `examples` value
into several `content` entries, so plain size does not decrease.  The
weighted measure `mu` below charges the value under a `schema` key with
a multiplier one larger than the total entry weight `W` of the sibling
`content` mapping, and adds a phantom unit `piEx` for a missing
`examples` key so that `W` is unchanged when an `examples` entry is
written.  `sumMu (applyEdit es) < mu (.map es)` then holds, which bounds
the recursion depth. -/

/-- One phantom unit when the mapping has no `examples` key yet. -/
def piEx (es : List (String × Node)) : Nat :=
  if hasKey es "examples" then 0 else 1

/-- Number of entries keyed `schema`. -/
def countSchema (es : List (String × Node)) : Nat :=
  es.countP (fun p => p.1 == "schema")

mutual

/-- Total entry weight of a mapping node (`0` on everything else). -/
def W : Node → Nat
  | .map es => piEx es + es.length + countSchema es * Wcv es
  | _ => 0

/-- `W` of the value under the first `content` key, if any. -/
def Wcv : List (String × Node) → Nat
  | [] => 0
  | (k, v) :: rest => if k == "content" then W v else Wcv rest

end

mutual

/-- The weighted size used as the recursion bound. -/
def mu : Node → Nat
  | .map es => 1 + piEx es + muEnts (Wcv es) es
  | .seq l => 1 + muList l
  | _ => 1

/-- Weighted sum of the entry values: a value under a `schema` key is
multiplied by `1 + wc`, where `wc` is the weight of the `content`
sibling. -/
def muEnts (wc : Nat) : List (String × Node) → Nat
  | [] => 0
  | (k, v) :: rest => (if k == "schema" then 1 + wc else 1) * mu v + muEnts wc rest

/-- Sum of `mu` over the elements of a sequence. -/
def muList : List Node → Nat
  | [] => 0
  | x :: rest => mu x + muList rest

end

/-- Unweighted sum of `mu` over the values of a mapping. -/
def sumMu : List (String × Node) → Nat
  | [] => 0
  | (_, v) :: rest => mu v + sumMu rest

/-! ## The rewriter

`fix_examples` is not structurally recursive (it recurses into the
values of the *edited* mapping), so it is defined through the
fuel-indexed evaluator `fixF`, with `none` meaning the fuel ran out.
`mu` fuel always suffices (`fixF_mu`), which yields `fixExamples`
together with its recursion equations `fixExamples_map` /
`fixExamples_seq`, matching the source line by line. -/

/-- Apply an evaluator `g` to every value of an entry list, keys kept:
`for key, value in data.items(): data[key] = fix_examples(value)`,
stopping at the first error, with `none` propagated for exhausted
fuel. -/
def entsWith (g : Node → Option (Except PyError Node)) :
    List (String × Node) → Option (Except PyError (List (String × Node)))
  | [] => some (.ok [])
  | (k, v) :: rest =>
    match g v with
    | none => none
    | some (.error e) => some (.error e)
    | some (.ok v') =>
      match entsWith g rest with
      | none => none
      | some (.error e) => some (.error e)
      | some (.ok rest') => some (.ok ((k, v') :: rest'))

/-- Apply an evaluator `g` to every element of a list:
`[fix_examples(item) for item in data]`, first error wins. -/
def listWith (g : Node → Option (Except PyError Node)) :
    List Node → Option (Except PyError (List Node))
  | [] => some (.ok [])
  | x :: rest =>
    match g x with
    | none => none
    | some (.error e) => some (.error e)
    | some (.ok x') =>
      match listWith g rest with
      | none => none
      | some (.error e) => some (.error e)
      | some (.ok rest') => some (.ok (x' :: rest'))

/-- Fuel-indexed evaluator for `fix_examples` (lines 6–25 of
`fix_openapi.py`): on a dict, apply the edit of lines 10–16 and then
rewrite every value in order; on a list, rewrite every element; return
scalars unchanged.  `none` means the fuel ran out. -/
def fixF : Nat → Node → Option (Except PyError Node)
  | 0, _ => none
  | f + 1, .map es =>
    match applyEdit es with
    | .error e => some (.error e)
    | .ok es1 =>
      match entsWith (fixF f) es1 with
      | none => none
      | some (.error e) => some (.error e)
      | some (.ok es2) => some (.ok (.map es2))
  | f + 1, .seq l =>
      match listWith (fixF f) l with
      | none => none
      | some (.error e) => some (.error e)
      | some (.ok l') => some (.ok (.seq l'))
  | _ + 1, n => some (.ok n)

/-- `fix_examples`: evaluate with `mu` fuel, which `fixF_mu` proves is
always enough; the default branch is unreachable. -/
def fixExamples (n : Node) : Except PyError Node :=
  (fixF (mu n) n).getD (.error .typeError)

/-- `fix_examples` applied to every value of an entry list, keys kept:
the recursion of lines 19–20 of the source. -/
def fixEntriesT : List (String × Node) → Except PyError (List (String × Node))
  | [] => .ok []
  | (k, v) :: rest =>
    match fixExamples v with
    | .error e => .error e
    | .ok v' =>
      match fixEntriesT rest with
      | .error e => .error e
      | .ok rest' => .ok ((k, v') :: rest')

/-- `fix_examples` applied to every element of a list: line 23 of the
source. -/
def fixListT : List Node → Except PyError (List Node)
  | [] => .ok []
  | x :: rest =>
    match fixExamples x with
    | .error e => .error e
    | .ok x' =>
      match fixListT rest with
      | .error e => .error e
      | .ok rest' => .ok (x' :: rest')

/-! ## Basic lemmas about the mapping operations and the measure -/

theorem mu_pos (n : Node) : 1 ≤ mu n := by
  cases n <;> simp only [mu] <;> omega

theorem hasKey_cons (p : String × Node) (rest : List (String × Node)) (k : String) :
    hasKey (p :: rest) k = (p.1 == k || hasKey rest k) := rfl

theorem keysOf_cons (p : String × Node) (rest : List (String × Node)) :
    keysOf (p :: rest) = p.1 :: keysOf rest := rfl

theorem hasKey_cons_ne {k0 k : String} {v0 : Node} {rest : List (String × Node)}
    (hp : k0 ≠ k) (h : hasKey ((k0, v0) :: rest) k = true) : hasKey rest k = true := by
  rw [hasKey_cons] at h
  simp only [Bool.or_eq_true, beq_iff_eq] at h
  exact h.resolve_left hp

theorem sumMu_le_muEnts (wc : Nat) (l : List (String × Node)) :
    sumMu l ≤ muEnts wc l := by
  induction l with
  | nil => simp [sumMu, muEnts]
  | cons p rest ih =>
    obtain ⟨k, v⟩ := p
    simp only [sumMu, muEnts]
    have h1 : 1 * mu v ≤ (if k == "schema" then 1 + wc else 1) * mu v :=
      Nat.mul_le_mul_right _ (by split <;> omega)
    omega

theorem hasKey_congr {l l' : List (String × Node)} (h : keysOf l = keysOf l')
    (k : String) : hasKey l k = hasKey l' k := by
  have e : ∀ m : List (String × Node), hasKey m k = (keysOf m).any (fun x => x == k) := by
    intro m
    induction m with
    | nil => rfl
    | cons p rest ih =>
      rw [hasKey_cons, keysOf_cons, List.any_cons, ih]
  rw [e, e, h]

theorem getKey_setKey_self (l : List (String × Node)) (k : String) (v : Node) :
    getKey (setKey l k v) k = v := by
  induction l with
  | nil => simp [setKey, getKey]
  | cons p rest ih =>
    obtain ⟨k0, v0⟩ := p
    by_cases hp : k0 = k
    · subst hp
      simp [setKey, getKey]
    · simp [setKey, getKey, hp, ih]

theorem getKey_setKey_ne (l : List (String × Node)) {k k' : String} (v : Node)
    (h : k ≠ k') : getKey (setKey l k v) k' = getKey l k' := by
  induction l with
  | nil => simp [setKey, getKey, h]
  | cons p rest ih =>
    obtain ⟨k0, v0⟩ := p
    by_cases hp : k0 = k
    · subst hp
      simp [setKey, getKey, h]
    · by_cases hp' : k0 = k'
      · subst hp'
        simp [setKey, getKey, hp]
      · simp [setKey, getKey, hp, hp', ih]

theorem hasKey_setKey_ne (l : List (String × Node)) {k k' : String} (v : Node)
    (h : k ≠ k') : hasKey (setKey l k v) k' = hasKey l k' := by
  induction l with
  | nil => simp [setKey, hasKey, h]
  | cons p rest ih =>
    obtain ⟨k0, v0⟩ := p
    by_cases hp : k0 = k
    · subst hp
      simp [setKey, hasKey_cons, h]
    · simp only [setKey, beq_iff_eq, if_neg hp, hasKey_cons]
      rw [ih]

theorem keysOf_setKey_of_hasKey {l : List (String × Node)} {k : String}
    (v : Node) (h : hasKey l k = true) : keysOf (setKey l k v) = keysOf l := by
  induction l with
  | nil => simp [hasKey] at h
  | cons p rest ih =>
    obtain ⟨k0, v0⟩ := p
    by_cases hp : k0 = k
    · subst hp
      simp [setKey, keysOf]
    · have h := hasKey_cons_ne hp h
      simp only [setKey, beq_iff_eq, if_neg hp, keysOf_cons]
      rw [ih h]

theorem keysOf_setKey_of_not {l : List (String × Node)} {k : String}
    (v : Node) (h : hasKey l k = false) :
    keysOf (setKey l k v) = keysOf l ++ [k] := by
  induction l with
  | nil => simp [setKey, keysOf]
  | cons p rest ih =>
    obtain ⟨k0, v0⟩ := p
    rw [hasKey_cons] at h
    simp only [Bool.or_eq_false_iff, beq_eq_false_iff_ne, ne_eq] at h
    simp only [setKey, beq_iff_eq, if_neg h.1, keysOf_cons]
    rw [ih h.2]
    rfl

theorem hasKey_eraseKey_self (l : List (String × Node)) (k : String) :
    hasKey (eraseKey l k) k = false := by
  induction l with
  | nil => rfl
  | cons p rest ih =>
    obtain ⟨k0, v0⟩ := p
    by_cases hp : k0 = k
    · subst hp
      simpa [eraseKey, List.filter_cons] using ih
    · simpa [eraseKey, List.filter_cons, hp, hasKey_cons] using ih

theorem sumMu_setKey_swap {l : List (String × Node)} {k : String}
    (v : Node) (h : hasKey l k = true) :
    sumMu (setKey l k v) + mu (getKey l k) = sumMu l + mu v := by
  induction l with
  | nil => simp [hasKey] at h
  | cons p rest ih =>
    obtain ⟨k0, v0⟩ := p
    by_cases hp : k0 = k
    · subst hp
      simp only [setKey, getKey, beq_self_eq_true, if_true, sumMu]
      omega
    · have h := hasKey_cons_ne hp h
      simp only [setKey, getKey, beq_iff_eq, if_neg hp, sumMu]
      have := ih h
      omega

theorem mu_getKey_le_muEnts {l : List (String × Node)} {k : String}
    (wc : Nat) (h : hasKey l k = true) : mu (getKey l k) ≤ muEnts wc l := by
  induction l with
  | nil => simp [hasKey] at h
  | cons p rest ih =>
    obtain ⟨k0, v0⟩ := p
    by_cases hp : k0 = k
    · subst hp
      have h1 : 1 * mu v0 ≤ (if k0 == "schema" then 1 + wc else 1) * mu v0 :=
        Nat.mul_le_mul_right _ (by split <;> omega)
      simp only [getKey, muEnts, beq_self_eq_true, if_true]
      omega
    · have h := hasKey_cons_ne hp h
      have := ih h
      simp only [getKey, muEnts, beq_iff_eq, if_neg hp]
      omega

theorem muEnts_schema_lower {l : List (String × Node)} (wc : Nat)
    (h : hasKey l "schema" = true) :
    sumMu l + wc * mu (getKey l "schema") ≤ muEnts wc l := by
  induction l with
  | nil => simp [hasKey] at h
  | cons p rest ih =>
    obtain ⟨k0, v0⟩ := p
    by_cases hp : k0 = "schema"
    · subst hp
      have hrest := sumMu_le_muEnts wc rest
      have hm : (1 + wc) * mu v0 = mu v0 + wc * mu v0 := by ring
      simp only [getKey, muEnts, sumMu, beq_self_eq_true, if_true]
      omega
    · have h := hasKey_cons_ne hp h
      have := ih h
      simp only [getKey, muEnts, sumMu, beq_iff_eq, if_neg hp]
      omega


/-! ## Stability of the weights under the edit operations -/

theorem hasKey_setKey_self (l : List (String × Node)) (k : String) (v : Node) :
    hasKey (setKey l k v) k = true := by
  induction l with
  | nil => simp [setKey, hasKey]
  | cons p rest ih =>
    obtain ⟨k0, v0⟩ := p
    by_cases hp : k0 = k
    · subst hp
      simp [setKey, hasKey_cons]
    · simp only [setKey, beq_iff_eq, if_neg hp, hasKey_cons, ih, Bool.or_true]

theorem setKey_append_of_not {l : List (String × Node)} {k : String}
    (v : Node) (h : hasKey l k = false) : setKey l k v = l ++ [(k, v)] := by
  induction l with
  | nil => simp [setKey]
  | cons p rest ih =>
    obtain ⟨k0, v0⟩ := p
    rw [hasKey_cons] at h
    simp only [Bool.or_eq_false_iff, beq_eq_false_iff_ne, ne_eq] at h
    simp only [setKey, beq_iff_eq, if_neg h.1, List.cons_append, List.cons.injEq, true_and]
    exact ih h.2

theorem eraseKey_cons_self (k : String) (v0 : Node) (rest : List (String × Node)) :
    eraseKey ((k, v0) :: rest) k = eraseKey rest k := by
  simp [eraseKey, List.filter_cons]

theorem eraseKey_cons_ne {k0 k : String} (v0 : Node) (rest : List (String × Node))
    (hp : k0 ≠ k) : eraseKey ((k0, v0) :: rest) k = (k0, v0) :: eraseKey rest k := by
  simp [eraseKey, List.filter_cons, hp]

theorem keysOf_length (l : List (String × Node)) : (keysOf l).length = l.length :=
  List.length_map _ _

theorem countSchema_keysOf (l : List (String × Node)) :
    countSchema l = (keysOf l).countP (fun x => x == "schema") := by
  induction l with
  | nil => rfl
  | cons p rest ih =>
    simp only [countSchema, keysOf, List.countP_cons, List.map_cons] at ih ⊢
    omega

theorem countSchema_congr {l l' : List (String × Node)} (h : keysOf l = keysOf l') :
    countSchema l = countSchema l' := by
  rw [countSchema_keysOf, countSchema_keysOf, h]

theorem piEx_congr {l l' : List (String × Node)} (h : keysOf l = keysOf l') :
    piEx l = piEx l' := by
  unfold piEx
  rw [hasKey_congr h]

theorem Wcv_setKey_ne {l : List (String × Node)} {k : String} (v : Node)
    (h : k ≠ "content") : Wcv (setKey l k v) = Wcv l := by
  induction l with
  | nil => simp [setKey, Wcv, h]
  | cons p rest ih =>
    obtain ⟨k0, v0⟩ := p
    by_cases hp : k0 = k
    · subst hp
      simp [setKey, Wcv, h]
    · by_cases hc : k0 = "content"
      · subst hc
        simp [setKey, Wcv, hp]
      · simp only [setKey, beq_iff_eq, if_neg hp, Wcv, if_neg hc]
        exact ih

theorem Wcv_eraseKey_ne {l : List (String × Node)} {k : String}
    (h : k ≠ "content") : Wcv (eraseKey l k) = Wcv l := by
  induction l with
  | nil => rfl
  | cons p rest ih =>
    obtain ⟨k0, v0⟩ := p
    by_cases hp : k0 = k
    · subst hp
      rw [eraseKey_cons_self, ih]
      simp [Wcv, h]
    · rw [eraseKey_cons_ne v0 rest hp]
      by_cases hc : k0 = "content"
      · subst hc
        simp [Wcv]
      · simp [Wcv, hc, ih]

theorem Wcv_getKey {l : List (String × Node)} (h : hasKey l "content" = true) :
    Wcv l = W (getKey l "content") := by
  induction l with
  | nil => simp [hasKey] at h
  | cons p rest ih =>
    obtain ⟨k0, v0⟩ := p
    by_cases hc : k0 = "content"
    · subst hc
      simp [Wcv, getKey]
    · have h := hasKey_cons_ne hc h
      simp only [Wcv, getKey, beq_iff_eq, if_neg hc]
      exact ih h

theorem Wcv_of_not {l : List (String × Node)} (h : hasKey l "content" = false) :
    Wcv l = 0 := by
  induction l with
  | nil => rfl
  | cons p rest ih =>
    obtain ⟨k0, v0⟩ := p
    rw [hasKey_cons] at h
    simp only [Bool.or_eq_false_iff, beq_eq_false_iff_ne, ne_eq] at h
    simp only [Wcv, beq_iff_eq, if_neg h.1]
    exact ih (by simpa [hasKey] using h.2)

theorem W_setKey_examples (l : List (String × Node)) (v : Node) :
    W (.map (setKey l "examples" v)) = W (.map l) := by
  have hwcv : Wcv (setKey l "examples" v) = Wcv l :=
    Wcv_setKey_ne v (by decide)
  cases h : hasKey l "examples" with
  | false =>
    have hk := keysOf_setKey_of_not v h
    have hlen : (setKey l "examples" v).length = l.length + 1 := by
      rw [← keysOf_length, hk, List.length_append, keysOf_length]
      rfl
    have hcs : countSchema (setKey l "examples" v) = countSchema l := by
      rw [countSchema_keysOf, hk, List.countP_append, ← countSchema_keysOf]
      simp
    have hpi1 : piEx (setKey l "examples" v) = 0 := by
      simp [piEx, hasKey_setKey_self]
    have hpi2 : piEx l = 1 := by
      simp [piEx, h]
    simp only [W, hpi1, hpi2, hlen, hcs, hwcv]
    omega
  | true =>
    have hk := keysOf_setKey_of_hasKey v h
    have hlen : (setKey l "examples" v).length = l.length := by
      rw [← keysOf_length, hk, keysOf_length]
    have hcs := countSchema_congr hk
    have hpi := piEx_congr hk
    simp only [W, hpi, hlen, hcs, hwcv]

theorem muEnts_append (wc : Nat) (l1 l2 : List (String × Node)) :
    muEnts wc (l1 ++ l2) = muEnts wc l1 + muEnts wc l2 := by
  induction l1 with
  | nil => simp [muEnts]
  | cons p rest ih =>
    obtain ⟨k0, v0⟩ := p
    have e : ((k0, v0) :: rest) ++ l2 = (k0, v0) :: (rest ++ l2) := rfl
    rw [e]
    simp only [muEnts]
    rw [ih]
    omega

theorem muEnts_setKey_swap_ne {l : List (String × Node)} {k : String} (wc : Nat)
    (v : Node) (h : hasKey l k = true) (hs : k ≠ "schema") :
    muEnts wc (setKey l k v) + mu (getKey l k) = muEnts wc l + mu v := by
  induction l with
  | nil => simp [hasKey] at h
  | cons p rest ih =>
    obtain ⟨k0, v0⟩ := p
    by_cases hp : k0 = k
    · subst hp
      simp only [setKey, getKey, beq_self_eq_true, if_true, muEnts, beq_iff_eq, if_neg hs]
      omega
    · have h := hasKey_cons_ne hp h
      simp only [setKey, getKey, beq_iff_eq, if_neg hp, muEnts]
      have := ih h
      omega

theorem muEnts_eraseKey_le (wc : Nat) (l : List (String × Node)) (k : String) :
    muEnts wc (eraseKey l k) ≤ muEnts wc l := by
  induction l with
  | nil => simp [eraseKey, muEnts]
  | cons p rest ih =>
    obtain ⟨k0, v0⟩ := p
    by_cases hp : k0 = k
    · subst hp
      rw [eraseKey_cons_self]
      have h1 : 0 < (if k0 == "schema" then 1 + wc else 1) * mu v0 :=
        Nat.mul_pos (by split <;> omega) (mu_pos v0)
      simp only [muEnts]
      omega
    · rw [eraseKey_cons_ne v0 rest hp]
      simp only [muEnts]
      omega

theorem muEnts_eraseKey_lt {l : List (String × Node)} {k : String} (wc : Nat)
    (h : hasKey l k = true) :
    muEnts wc (eraseKey l k) + 1 ≤ muEnts wc l := by
  induction l with
  | nil => simp [hasKey] at h
  | cons p rest ih =>
    obtain ⟨k0, v0⟩ := p
    by_cases hp : k0 = k
    · subst hp
      rw [eraseKey_cons_self]
      have h1 : 0 < (if k0 == "schema" then 1 + wc else 1) * mu v0 :=
        Nat.mul_pos (by split <;> omega) (mu_pos v0)
      have h2 := muEnts_eraseKey_le wc rest k0
      simp only [muEnts]
      omega
    · have h := hasKey_cons_ne hp h
      rw [eraseKey_cons_ne v0 rest hp]
      have := ih h
      simp only [muEnts]
      omega

theorem mu_setKey_examples (l : List (String × Node)) (v : Node) :
    mu (.map (setKey l "examples" v)) + 1 ≤ mu (.map l) + mu v := by
  cases h : hasKey l "examples" with
  | false =>
    have happ := setKey_append_of_not v h
    have hwcv : Wcv (l ++ [("examples", v)]) = Wcv l := by
      rw [← happ]
      exact Wcv_setKey_ne v (by decide)
    have hpi1 : piEx (l ++ [("examples", v)]) = 0 := by
      have hh : hasKey (l ++ [("examples", v)]) "examples" = true := by
        rw [← happ]
        exact hasKey_setKey_self l "examples" v
      simp [piEx, hh]
    have hpi2 : piEx l = 1 := by
      simp [piEx, h]
    have hm : muEnts (Wcv l) (l ++ [("examples", v)]) = muEnts (Wcv l) l + mu v := by
      rw [muEnts_append]
      simp [muEnts]
    rw [happ]
    simp only [mu, hpi1, hpi2, hwcv, hm]
    omega
  | true =>
    have hwcv : Wcv (setKey l "examples" v) = Wcv l :=
      Wcv_setKey_ne v (by decide)
    have hswap := muEnts_setKey_swap_ne (l := l) (Wcv l) v h (by decide)
    have hpos := mu_pos (getKey l "examples")
    have hpi1 : piEx (setKey l "examples" v) = 0 := by
      simp [piEx, hasKey_setKey_self]
    have hpi2 : piEx l = 0 := by
      simp [piEx, h]
    simp only [mu, hpi1, hpi2, hwcv]
    omega

theorem mu_eraseKey_examples {l : List (String × Node)}
    (h : hasKey l "examples" = true) :
    mu (.map (eraseKey l "examples")) ≤ mu (.map l) := by
  have hwcv : Wcv (eraseKey l "examples") = Wcv l :=
    Wcv_eraseKey_ne (by decide)
  have hment := muEnts_eraseKey_lt (l := l) (Wcv l) h
  have hpi2 : piEx l = 0 := by
    simp [piEx, h]
  have hpi1 : piEx (eraseKey l "examples") ≤ 1 := by
    unfold piEx
    split <;> omega
  simp only [mu, hpi2, hwcv]
  omega


/-! ## Lemmas about `relocate` and the edit step -/

/-- Sum of the entry weights of a mapping, `schema` keys weighing
`1 + wc`. -/
def wSum (wc : Nat) : List (String × Node) → Nat
  | [] => 0
  | (k, _) :: rest => (if k == "schema" then 1 + wc else 1) + wSum wc rest

theorem wSum_eq (wc : Nat) (l : List (String × Node)) :
    wSum wc l = l.length + countSchema l * wc := by
  induction l with
  | nil => simp [wSum, countSchema]
  | cons p rest ih =>
    obtain ⟨k, v⟩ := p
    by_cases hk : k = "schema"
    · subst hk
      have e1 : countSchema (("schema", v) :: rest) = countSchema rest + 1 := by
        simp [countSchema, List.countP_cons]
      have e2 : (countSchema rest + 1) * wc = countSchema rest * wc + wc := by ring
      simp only [wSum, beq_self_eq_true, if_true, List.length_cons, e1, e2, ih]
      omega
    · have hb : (k == "schema") = false := by simp [hk]
      have e1 : countSchema ((k, v) :: rest) = countSchema rest := by
        simp [countSchema, List.countP_cons, hk]
      simp only [wSum, hb, Bool.false_eq_true, if_false, List.length_cons, e1, ih]
      omega

theorem relocate_cons_ok {ev : Node} {k : String} {ct : Node}
    {rest res : List (String × Node)}
    (h : relocate ev ((k, ct) :: rest) = .ok res) :
    ∃ b ct' rest', pyContains "schema" ct = .ok b ∧
      (if b then pySetItem ct "examples" ev else .ok ct) = .ok ct' ∧
      relocate ev rest = .ok rest' ∧ res = (k, ct') :: rest' := by
  rw [relocate] at h
  split at h
  · exact absurd h (by simp)
  · next b heq =>
    split at h
    · exact absurd h (by simp)
    · next ct' heq2 =>
      split at h
      · exact absurd h (by simp)
      · next rest' heq3 =>
        simp only [Except.ok.injEq] at h
        exact ⟨b, ct', rest', heq, heq2, heq3, h.symm⟩

theorem relocStep_ok {ev ct ct' : Node} {b : Bool}
    (hc : pyContains "schema" ct = .ok b)
    (hs : (if b then pySetItem ct "examples" ev else .ok ct) = .ok ct') :
    (b = false ∧ ct' = ct) ∨
    (b = true ∧ ∃ cts, ct = .map cts ∧ hasKey cts "schema" = true ∧
      ct' = .map (setKey cts "examples" ev)) := by
  cases b with
  | false =>
    left
    refine ⟨rfl, ?_⟩
    simp only [Bool.false_eq_true, if_false, Except.ok.injEq] at hs
    exact hs.symm
  | true =>
    right
    refine ⟨rfl, ?_⟩
    rw [if_pos rfl] at hs
    cases ct with
    | map cts =>
      simp only [pySetItem, Except.ok.injEq] at hs
      simp only [pyContains, Except.ok.injEq] at hc
      exact ⟨cts, rfl, hc, hs.symm⟩
    | seq l => exact absurd hs (by simp [pySetItem])
    | str s => exact absurd hs (by simp [pySetItem])
    | int i => exact absurd hs (by simp [pySetItem])
    | bool bb => exact absurd hs (by simp [pySetItem])
    | null => exact absurd hs (by simp [pySetItem])

theorem relocStep_W {ev ct ct' : Node} {b : Bool}
    (hc : pyContains "schema" ct = .ok b)
    (hs : (if b then pySetItem ct "examples" ev else .ok ct) = .ok ct') :
    W ct' = W ct ∧ mu ct' ≤ mu ct + mu ev := by
  rcases relocStep_ok hc hs with ⟨_, rfl⟩ | ⟨_, cts, rfl, _, rfl⟩
  · exact ⟨rfl, by omega⟩
  · refine ⟨W_setKey_examples cts ev, ?_⟩
    have := mu_setKey_examples cts ev
    omega

theorem relocate_keysOf {ev : Node} :
    ∀ {ces ces' : List (String × Node)}, relocate ev ces = .ok ces' →
      keysOf ces' = keysOf ces := by
  intro ces
  induction ces with
  | nil =>
    intro ces' h
    simp only [relocate, Except.ok.injEq] at h
    rw [← h]
  | cons p rest ih =>
    intro ces' h
    obtain ⟨k, ct⟩ := p
    obtain ⟨b, ct', rest', _, _, hr, rfl⟩ := relocate_cons_ok h
    rw [keysOf_cons, keysOf_cons, ih hr]

theorem relocate_Wcv {ev : Node} :
    ∀ {ces ces' : List (String × Node)}, relocate ev ces = .ok ces' →
      Wcv ces' = Wcv ces := by
  intro ces
  induction ces with
  | nil =>
    intro ces' h
    simp only [relocate, Except.ok.injEq] at h
    rw [← h]
  | cons p rest ih =>
    intro ces' h
    obtain ⟨k, ct⟩ := p
    obtain ⟨b, ct', rest', hc, hs, hr, rfl⟩ := relocate_cons_ok h
    by_cases hk : k = "content"
    · subst hk
      simp only [Wcv, beq_self_eq_true, if_true]
      exact (relocStep_W hc hs).1
    · simp only [Wcv, beq_iff_eq, if_neg hk]
      exact ih hr

theorem relocate_muEnts {ev : Node} (wc : Nat) :
    ∀ {ces ces' : List (String × Node)}, relocate ev ces = .ok ces' →
      muEnts wc ces' ≤ muEnts wc ces + mu ev * wSum wc ces := by
  intro ces
  induction ces with
  | nil =>
    intro ces' h
    simp only [relocate, Except.ok.injEq] at h
    rw [← h]
    simp [muEnts]
  | cons p rest ih =>
    intro ces' h
    obtain ⟨k, ct⟩ := p
    obtain ⟨b, ct', rest', hc, hs, hr, rfl⟩ := relocate_cons_ok h
    have hmu := (relocStep_W hc hs).2
    have hrest := ih hr
    simp only [muEnts, wSum]
    have h1 : (if k == "schema" then 1 + wc else 1) * mu ct'
        ≤ (if k == "schema" then 1 + wc else 1) * mu ct
          + (if k == "schema" then 1 + wc else 1) * mu ev := by
      calc (if k == "schema" then 1 + wc else 1) * mu ct'
          ≤ (if k == "schema" then 1 + wc else 1) * (mu ct + mu ev) :=
            Nat.mul_le_mul_left _ hmu
        _ = _ := by ring
    have h2 : mu ev * ((if k == "schema" then 1 + wc else 1) + wSum wc rest)
        = (if k == "schema" then 1 + wc else 1) * mu ev + mu ev * wSum wc rest := by
      ring
    omega

theorem relocate_mu_map {ev : Node} {ces ces' : List (String × Node)}
    (h : relocate ev ces = .ok ces') :
    mu (.map ces') ≤ mu (.map ces) + mu ev * W (.map ces) := by
  have hk := relocate_keysOf h
  have hw := relocate_Wcv h
  have hm := relocate_muEnts (Wcv ces) h
  have hpi := piEx_congr hk
  have hW : W (.map ces) = piEx ces + ces.length + countSchema ces * Wcv ces := rfl
  have h5 : mu ev * wSum (Wcv ces) ces ≤ mu ev * W (.map ces) := by
    refine Nat.mul_le_mul_left _ ?_
    rw [wSum_eq, hW]
    omega
  simp only [mu, hw, hpi]
  omega


/-- Case analysis of the edit step on a successful run: either the
trigger of line 10 did not fire and the entries are unchanged, or the
`examples` entry was popped from the `schema` mapping and, when a
`content` key is present, relocated into its entries. -/
theorem applyEdit_cases {es es1 : List (String × Node)} (h : applyEdit es = .ok es1) :
    (es1 = es ∧ (hasKey es "schema" = false ∨
        pyContains "examples" (getKey es "schema") = .ok false)) ∨
    (∃ ses ces ces',
        hasKey es "schema" = true ∧ getKey es "schema" = .map ses ∧
        hasKey ses "examples" = true ∧
        hasKey es "content" = true ∧ getKey es "content" = .map ces ∧
        relocate (getKey ses "examples") ces = .ok ces' ∧
        es1 = setKey (setKey es "schema" (.map (eraseKey ses "examples")))
          "content" (.map ces')) ∨
    (∃ ses,
        hasKey es "schema" = true ∧ getKey es "schema" = .map ses ∧
        hasKey ses "examples" = true ∧
        hasKey es "content" = false ∧
        es1 = setKey es "schema" (.map (eraseKey ses "examples"))) := by
  unfold applyEdit at h
  cases hsk : hasKey es "schema" with
  | false =>
    rw [hsk] at h
    simp only [Bool.false_eq_true, if_false, Except.ok.injEq] at h
    exact Or.inl ⟨h.symm, Or.inl rfl⟩
  | true =>
    rw [hsk] at h
    simp only [eq_self_iff_true, if_true] at h
    split at h
    · exact absurd h (by simp)
    · next heq =>
      simp only [Except.ok.injEq] at h
      exact Or.inl ⟨h.symm, Or.inr heq⟩
    · next heq =>
      split at h
      · exact absurd h (by simp)
      · next ev sv' heq2 =>
        obtain ⟨ses, hsv, hex, hev, hsv'⟩ :
            ∃ ses, getKey es "schema" = .map ses ∧ hasKey ses "examples" = true ∧
              ev = getKey ses "examples" ∧
              sv' = .map (eraseKey ses "examples") := by
          cases hg : getKey es "schema" with
          | map ses =>
            rw [hg] at heq2
            cases hx : hasKey ses "examples" with
            | true =>
              simp only [pyPop, hx, eq_self_iff_true, if_true,
                Except.ok.injEq, Prod.mk.injEq] at heq2
              exact ⟨ses, rfl, hx, heq2.1.symm, heq2.2.symm⟩
            | false =>
              simp only [pyPop, hx, Bool.false_eq_true, if_false] at heq2
              exact absurd heq2 (by simp)
          | seq l =>
            rw [hg] at heq2
            exact absurd heq2 (by simp [pyPop])
          | str str =>
            rw [hg] at heq2
            exact absurd heq2 (by simp [pyPop])
          | int i =>
            rw [hg] at heq2
            exact absurd heq2 (by simp [pyPop])
          | bool b =>
            rw [hg] at heq2
            exact absurd heq2 (by simp [pyPop])
          | null =>
            rw [hg] at heq2
            exact absurd heq2 (by simp [pyPop])
        subst hsv'
        subst hev
        rw [hasKey_setKey_ne es (.map (eraseKey ses "examples")) (by decide)] at h
        cases hck : hasKey es "content" with
        | false =>
          rw [hck] at h
          simp only [Bool.false_eq_true, if_false, Except.ok.injEq] at h
          exact Or.inr (Or.inr ⟨ses, rfl, hsv, hex, rfl, h.symm⟩)
        | true =>
          rw [hck] at h
          simp only [eq_self_iff_true, if_true] at h
          rw [getKey_setKey_ne es (.map (eraseKey ses "examples")) (by decide)] at h
          split at h
          · next ces heq3 =>
            split at h
            · exact absurd h (by simp)
            · next ces' heq4 =>
              simp only [Except.ok.injEq] at h
              exact Or.inr (Or.inl ⟨ses, ces, ces', rfl, hsv, hex, rfl, heq3, heq4, h.symm⟩)
          · exact absurd h (by simp)

/-- The key bound: a successful edit strictly shrinks the weighted sum
of the values that the recursion of lines 19–20 will visit. -/
theorem applyEdit_sumMu {es es1 : List (String × Node)} (h : applyEdit es = .ok es1) :
    sumMu es1 < mu (.map es) := by
  rcases applyEdit_cases h with ⟨heq, _⟩ |
    ⟨ses, ces, ces', hsk, hsv, hex, hck, hcv, hrel, rfl⟩ |
    ⟨ses, hsk, hsv, hex, hck, rfl⟩
  · rw [heq]
    have := sumMu_le_muEnts (Wcv es) es
    simp only [mu]
    omega
  · have hb3 : mu (getKey ses "examples") + 1 ≤ mu (.map ses) := by
      have := mu_getKey_le_muEnts (Wcv ses) hex
      simp only [mu]
      omega
    have he1 := sumMu_setKey_swap (l := es) (.map (eraseKey ses "examples")) hsk
    rw [hsv] at he1
    have hb1 : mu (.map (eraseKey ses "examples")) ≤ mu (.map ses) :=
      mu_eraseKey_examples hex
    have hck' : hasKey (setKey es "schema" (.map (eraseKey ses "examples"))) "content" = true := by
      rw [hasKey_setKey_ne es _ (by decide)]
      exact hck
    have hgc' : getKey (setKey es "schema" (.map (eraseKey ses "examples"))) "content" = .map ces := by
      rw [getKey_setKey_ne es _ (by decide)]
      exact hcv
    have he2 := sumMu_setKey_swap
      (l := setKey es "schema" (.map (eraseKey ses "examples"))) (.map ces') hck'
    rw [hgc'] at he2
    have hwcv : Wcv es = W (.map ces) := by
      rw [Wcv_getKey hck, hcv]
    have hb2 : mu (.map ces') ≤ mu (.map ces) + mu (getKey ses "examples") * Wcv es := by
      rw [hwcv]
      exact relocate_mu_map hrel
    have hmul : mu (getKey ses "examples") * Wcv es ≤ mu (.map ses) * Wcv es :=
      Nat.mul_le_mul_right _ (by omega)
    have hlow := muEnts_schema_lower (Wcv es) hsk
    rw [hsv] at hlow
    have hcomm : Wcv es * mu (.map ses) = mu (.map ses) * Wcv es := Nat.mul_comm _ _
    simp only [mu]
    omega
  · have he1 := sumMu_setKey_swap (l := es) (.map (eraseKey ses "examples")) hsk
    rw [hsv] at he1
    have hb1 : mu (.map (eraseKey ses "examples")) ≤ mu (.map ses) :=
      mu_eraseKey_examples hex
    have := sumMu_le_muEnts (Wcv es) es
    have hlow := muEnts_schema_lower (Wcv es) hsk
    rw [hsv] at hlow
    have hpos := mu_pos (.map ses)
    simp only [mu]
    omega


/-! ## `mu` fuel always suffices -/

theorem sumMu_mem_le {l : List (String × Node)} {k : String} {v : Node}
    (hp : (k, v) ∈ l) : mu v ≤ sumMu l := by
  induction l with
  | nil => simp at hp
  | cons q rest ih =>
    obtain ⟨k0, v0⟩ := q
    rcases List.mem_cons.mp hp with heq | hp'
    · injection heq with h1 h2
      subst h2
      simp only [sumMu]
      omega
    · have := ih hp'
      have := mu_pos v0
      simp only [sumMu]
      omega

theorem muList_mem_le {l : List Node} {x : Node} (hx : x ∈ l) :
    mu x ≤ muList l := by
  induction l with
  | nil => simp at hx
  | cons y rest ih =>
    rcases List.mem_cons.mp hx with rfl | hx'
    · simp only [muList]
      omega
    · have := ih hx'
      simp only [muList]
      omega

theorem entsWith_mono {g g' : Node → Option (Except PyError Node)}
    (hg : ∀ v r, g v = some r → g' v = some r) :
    ∀ {l r}, entsWith g l = some r → entsWith g' l = some r := by
  intro l
  induction l with
  | nil => exact fun h => h
  | cons p rest ih =>
    intro r h
    obtain ⟨k, v⟩ := p
    simp only [entsWith] at h
    split at h
    · exact absurd h (by simp)
    · next e heq =>
      simp only [entsWith, hg v _ heq]
      exact h
    · next v' heq =>
      split at h
      · exact absurd h (by simp)
      · next e heq2 =>
        simp only [entsWith, hg v _ heq, ih heq2]
        exact h
      · next rest' heq2 =>
        simp only [entsWith, hg v _ heq, ih heq2]
        exact h

theorem listWith_mono {g g' : Node → Option (Except PyError Node)}
    (hg : ∀ v r, g v = some r → g' v = some r) :
    ∀ {l r}, listWith g l = some r → listWith g' l = some r := by
  intro l
  induction l with
  | nil => exact fun h => h
  | cons x rest ih =>
    intro r h
    simp only [listWith] at h
    split at h
    · exact absurd h (by simp)
    · next e heq =>
      simp only [listWith, hg x _ heq]
      exact h
    · next x' heq =>
      split at h
      · exact absurd h (by simp)
      · next e heq2 =>
        simp only [listWith, hg x _ heq, ih heq2]
        exact h
      · next rest' heq2 =>
        simp only [listWith, hg x _ heq, ih heq2]
        exact h

theorem fixF_succ : ∀ (f : Nat) {n r}, fixF f n = some r → fixF (f + 1) n = some r := by
  intro f
  induction f with
  | zero =>
    intro n r h
    exact absurd h (by simp [fixF])
  | succ f ih =>
    intro n r h
    cases n with
    | map es =>
      simp only [fixF] at h ⊢
      split at h
      · exact h
      · next es1 heq =>
        split at h
        · exact absurd h (by simp)
        · next e heq2 =>
          simp only [entsWith_mono (fun v r hv => ih hv) heq2]
          exact h
        · next es2 heq2 =>
          simp only [entsWith_mono (fun v r hv => ih hv) heq2]
          exact h
    | seq l =>
      simp only [fixF] at h ⊢
      split at h
      · exact absurd h (by simp)
      · next e heq =>
        simp only [listWith_mono (fun v r hv => ih hv) heq]
        exact h
      · next l' heq =>
        simp only [listWith_mono (fun v r hv => ih hv) heq]
        exact h
    | str s => exact h
    | int i => exact h
    | bool b => exact h
    | null => exact h

theorem fixF_le {f f' : Nat} (hle : f ≤ f') : ∀ {n r}, fixF f n = some r → fixF f' n = some r := by
  induction hle with
  | refl => exact fun h => h
  | step hm ih => exact fun h => fixF_succ _ (ih h)

theorem entsWith_total {g : Node → Option (Except PyError Node)} :
    ∀ {l : List (String × Node)}, (∀ p ∈ l, ∃ r, g p.2 = some r) →
      ∃ r, entsWith g l = some r := by
  intro l
  induction l with
  | nil => exact fun _ => ⟨.ok [], rfl⟩
  | cons p rest ih =>
    intro h
    obtain ⟨k, v⟩ := p
    obtain ⟨rv, hv⟩ := h (k, v) (by simp)
    obtain ⟨rr, hr⟩ := ih (fun q hq => h q (by simp [hq]))
    cases rv with
    | error e => exact ⟨.error e, by simp only [entsWith, hv]⟩
    | ok v' =>
      cases rr with
      | error e => exact ⟨.error e, by simp only [entsWith, hv, hr]⟩
      | ok rest' => exact ⟨.ok ((k, v') :: rest'), by simp only [entsWith, hv, hr]⟩

theorem listWith_total {g : Node → Option (Except PyError Node)} :
    ∀ {l : List Node}, (∀ x ∈ l, ∃ r, g x = some r) →
      ∃ r, listWith g l = some r := by
  intro l
  induction l with
  | nil => exact fun _ => ⟨.ok [], rfl⟩
  | cons x rest ih =>
    intro h
    obtain ⟨rv, hv⟩ := h x (by simp)
    obtain ⟨rr, hr⟩ := ih (fun q hq => h q (by simp [hq]))
    cases rv with
    | error e => exact ⟨.error e, by simp only [listWith, hv]⟩
    | ok x' =>
      cases rr with
      | error e => exact ⟨.error e, by simp only [listWith, hv, hr]⟩
      | ok rest' => exact ⟨.ok (x' :: rest'), by simp only [listWith, hv, hr]⟩

theorem fixF_mu_total : ∀ (f : Nat) (n : Node), mu n ≤ f → ∃ r, fixF f n = some r := by
  intro f
  induction f using Nat.strong_induction_on with
  | _ f ih =>
    intro n hmu
    have hpos := mu_pos n
    obtain ⟨f', rfl⟩ : ∃ f'', f = f'' + 1 := ⟨f - 1, by omega⟩
    cases n with
    | map es =>
      cases ha : applyEdit es with
      | error e => exact ⟨.error e, by simp only [fixF, ha]⟩
      | ok es1 =>
        have hlt := applyEdit_sumMu ha
        obtain ⟨r, hr⟩ : ∃ r, entsWith (fixF f') es1 = some r := by
          apply entsWith_total
          intro p hp
          obtain ⟨k, v⟩ := p
          apply ih f' (by omega) v
          have := sumMu_mem_le hp
          omega
        cases r with
        | error e => exact ⟨.error e, by simp only [fixF, ha, hr]⟩
        | ok es2 => exact ⟨.ok (.map es2), by simp only [fixF, ha, hr]⟩
    | seq l =>
      obtain ⟨r, hr⟩ : ∃ r, listWith (fixF f') l = some r := by
        apply listWith_total
        intro x hx
        apply ih f' (by omega) x
        have := muList_mem_le hx
        simp only [mu] at hmu
        omega
      cases r with
      | error e => exact ⟨.error e, by simp only [fixF, hr]⟩
      | ok l' => exact ⟨.ok (.seq l'), by simp only [fixF, hr]⟩
    | str s => exact ⟨.ok (.str s), rfl⟩
    | int i => exact ⟨.ok (.int i), rfl⟩
    | bool b => exact ⟨.ok (.bool b), rfl⟩
    | null => exact ⟨.ok .null, rfl⟩

/-- With at least `mu n` fuel, `fixF` computes `fixExamples`. -/
theorem fixF_mu {f : Nat} {n : Node} (h : mu n ≤ f) :
    fixF f n = some (fixExamples n) := by
  obtain ⟨r, hr⟩ := fixF_mu_total (mu n) n (Nat.le_refl _)
  have he : fixExamples n = r := by
    unfold fixExamples
    rw [hr]
    rfl
  rw [he]
  exact fixF_le h hr


/-! ## Recursion equations of `fixExamples`, matching the source -/

theorem fixEntriesT_bridge {f : Nat} :
    ∀ {l : List (String × Node)}, sumMu l ≤ f →
      entsWith (fixF f) l = some (fixEntriesT l) := by
  intro l
  induction l with
  | nil => intro _; rfl
  | cons p rest ih =>
    intro h
    obtain ⟨k, v⟩ := p
    simp only [sumMu] at h
    have hp := mu_pos v
    have hv : fixF f v = some (fixExamples v) := fixF_mu (by omega)
    have hrest := ih (by omega)
    cases hfv : fixExamples v with
    | error e =>
      simp only [entsWith, fixEntriesT, hv, hfv]
    | ok v' =>
      cases hfr : fixEntriesT rest with
      | error e =>
        simp only [entsWith, fixEntriesT, hv, hfv, hrest, hfr]
      | ok rest' =>
        simp only [entsWith, fixEntriesT, hv, hfv, hrest, hfr]

theorem fixListT_bridge {f : Nat} :
    ∀ {l : List Node}, muList l ≤ f →
      listWith (fixF f) l = some (fixListT l) := by
  intro l
  induction l with
  | nil => intro _; rfl
  | cons x rest ih =>
    intro h
    simp only [muList] at h
    have hp := mu_pos x
    have hv : fixF f x = some (fixExamples x) := fixF_mu (by omega)
    have hrest := ih (by omega)
    cases hfv : fixExamples x with
    | error e =>
      simp only [listWith, fixListT, hv, hfv]
    | ok x' =>
      cases hfr : fixListT rest with
      | error e =>
        simp only [listWith, fixListT, hv, hfv, hrest, hfr]
      | ok rest' =>
        simp only [listWith, fixListT, hv, hfv, hrest, hfr]

/-- The dict branch of `fix_examples` (lines 8–20 of the source): apply
the edit, then rewrite every value. -/
theorem fixExamples_map (es : List (String × Node)) :
    fixExamples (.map es) =
      (match applyEdit es with
      | .error e => .error e
      | .ok es1 =>
        match fixEntriesT es1 with
        | .error e => .error e
        | .ok es2 => .ok (.map es2)) := by
  obtain ⟨f, hf⟩ : ∃ f, mu (.map es) = f + 1 :=
    ⟨mu (.map es) - 1, by have := mu_pos (.map es); omega⟩
  unfold fixExamples
  rw [hf]
  cases ha : applyEdit es with
  | error e => simp only [fixF, ha]; rfl
  | ok es1 =>
    have hb := applyEdit_sumMu ha
    rw [hf] at hb
    have hents := fixEntriesT_bridge (f := f) (l := es1) (by omega)
    cases hr : fixEntriesT es1 with
    | error e =>
      rw [hr] at hents
      simp only [fixF, ha, hents, hr]
      rfl
    | ok es2 =>
      rw [hr] at hents
      simp only [fixF, ha, hents, hr]
      rfl

/-- The list branch of `fix_examples` (lines 22–23 of the source). -/
theorem fixExamples_seq (l : List Node) :
    fixExamples (.seq l) =
      (match fixListT l with
      | .error e => .error e
      | .ok l' => .ok (.seq l')) := by
  have hf : mu (.seq l) = muList l + 1 := by
    simp only [mu]
    omega
  unfold fixExamples
  rw [hf]
  have hlist := fixListT_bridge (f := muList l) (l := l) (Nat.le_refl _)
  cases hr : fixListT l with
  | error e =>
    rw [hr] at hlist
    simp only [fixF, hlist, hr]
    rfl
  | ok l' =>
    rw [hr] at hlist
    simp only [fixF, hlist, hr]
    rfl

/-- Scalars are returned unchanged (line 25 of the source). -/
theorem fixExamples_scalar :
    (∀ s, fixExamples (.str s) = .ok (.str s)) ∧
    (∀ i, fixExamples (.int i) = .ok (.int i)) ∧
    (∀ b, fixExamples (.bool b) = .ok (.bool b)) ∧
    fixExamples .null = .ok .null :=
  ⟨fun _ => rfl, fun _ => rfl, fun _ => rfl, rfl⟩


/-! ## Characterizations of successful runs -/

/-- Strong induction on the measure `mu`. -/
theorem mu_induction (P : Node → Prop)
    (h : ∀ n, (∀ m, mu m < mu n → P m) → P n) : ∀ n, P n := by
  have key : ∀ f n, mu n ≤ f → P n := by
    intro f
    induction f using Nat.strong_induction_on with
    | _ f ih =>
      intro n hn
      exact h n (fun m hm => ih (mu m) (by omega) m (Nat.le_refl _))
  exact fun n => key (mu n) n (Nat.le_refl _)

theorem fixEntriesT_ok : ∀ {l l' : List (String × Node)}, fixEntriesT l = .ok l' →
    List.Forall₂ (fun p q => p.1 = q.1 ∧ fixExamples p.2 = .ok q.2) l l' := by
  intro l
  induction l with
  | nil =>
    intro l' h
    simp only [fixEntriesT, Except.ok.injEq] at h
    rw [← h]
    exact List.Forall₂.nil
  | cons p rest ih =>
    intro l' h
    obtain ⟨k, v⟩ := p
    simp only [fixEntriesT] at h
    split at h
    · exact absurd h (by simp)
    · next v' heq =>
      split at h
      · exact absurd h (by simp)
      · next rest' heq2 =>
        simp only [Except.ok.injEq] at h
        rw [← h]
        exact List.Forall₂.cons ⟨rfl, heq⟩ (ih heq2)

theorem fixEntriesT_of_forall : ∀ {l l' : List (String × Node)},
    List.Forall₂ (fun p q => p.1 = q.1 ∧ fixExamples p.2 = .ok q.2) l l' →
    fixEntriesT l = .ok l' := by
  intro l
  induction l with
  | nil =>
    intro l' h
    cases h
    rfl
  | cons p rest ih =>
    intro l' h
    cases h with
    | cons h1 h2 =>
      obtain ⟨k, v⟩ := p
      next q l'' =>
        obtain ⟨k', v'⟩ := q
        obtain ⟨hk, hv⟩ := h1
        simp only at hk
        subst hk
        simp only [fixEntriesT, hv, ih h2]

theorem fixListT_ok : ∀ {l l' : List Node}, fixListT l = .ok l' →
    List.Forall₂ (fun x y => fixExamples x = .ok y) l l' := by
  intro l
  induction l with
  | nil =>
    intro l' h
    simp only [fixListT, Except.ok.injEq] at h
    rw [← h]
    exact List.Forall₂.nil
  | cons x rest ih =>
    intro l' h
    simp only [fixListT] at h
    split at h
    · exact absurd h (by simp)
    · next x' heq =>
      split at h
      · exact absurd h (by simp)
      · next rest' heq2 =>
        simp only [Except.ok.injEq] at h
        rw [← h]
        exact List.Forall₂.cons heq (ih heq2)

theorem fixListT_of_forall : ∀ {l l' : List Node},
    List.Forall₂ (fun x y => fixExamples x = .ok y) l l' →
    fixListT l = .ok l' := by
  intro l
  induction l with
  | nil =>
    intro l' h
    cases h
    rfl
  | cons x rest ih =>
    intro l' h
    cases h with
    | cons h1 h2 =>
      simp only [fixListT, h1, ih h2]

theorem forall2_keysOf {l l' : List (String × Node)}
    (hf : List.Forall₂ (fun p q => p.1 = q.1 ∧ fixExamples p.2 = .ok q.2) l l') :
    keysOf l' = keysOf l := by
  induction hf with
  | nil => rfl
  | cons h1 h2 ih => rw [keysOf_cons, keysOf_cons, ih, h1.1]

theorem fixEntriesT_keysOf {l l' : List (String × Node)}
    (h : fixEntriesT l = .ok l') : keysOf l' = keysOf l :=
  forall2_keysOf (fixEntriesT_ok h)

theorem fixEntriesT_getKey : ∀ {l l' : List (String × Node)},
    fixEntriesT l = .ok l' → ∀ {k : String}, hasKey l k = true →
    fixExamples (getKey l k) = .ok (getKey l' k) := by
  intro l
  induction l with
  | nil =>
    intro l' h k hk
    simp [hasKey] at hk
  | cons p rest ih =>
    intro l' h k hk
    obtain ⟨k0, v⟩ := p
    simp only [fixEntriesT] at h
    split at h
    · exact absurd h (by simp)
    · next v' heq =>
      split at h
      · exact absurd h (by simp)
      · next rest' heq2 =>
        simp only [Except.ok.injEq] at h
        rw [← h]
        by_cases hp : k0 = k
        · subst hp
          simp only [getKey, beq_self_eq_true, if_true]
          exact heq
        · have hk := hasKey_cons_ne hp hk
          simp only [getKey, beq_iff_eq, if_neg hp]
          exact ih heq2 hk

theorem applyEdit_keysOf {es es1 : List (String × Node)}
    (h : applyEdit es = .ok es1) : keysOf es1 = keysOf es := by
  rcases applyEdit_cases h with ⟨heq, _⟩ |
    ⟨ses, ces, ces', hsk, hsv, hex, hck, hcv, hrel, rfl⟩ |
    ⟨ses, hsk, hsv, hex, hck, rfl⟩
  · rw [heq]
  · have hck' : hasKey (setKey es "schema" (.map (eraseKey ses "examples"))) "content" = true := by
      rw [hasKey_setKey_ne es _ (by decide)]
      exact hck
    rw [keysOf_setKey_of_hasKey _ hck', keysOf_setKey_of_hasKey _ hsk]
  · rw [keysOf_setKey_of_hasKey _ hsk]

theorem fix_map_out {es : List (String × Node)} {m : Node}
    (h : fixExamples (.map es) = .ok m) :
    ∃ es1 es2, applyEdit es = .ok es1 ∧ fixEntriesT es1 = .ok es2 ∧ m = .map es2 := by
  rw [fixExamples_map] at h
  split at h
  · exact absurd h (by simp)
  · next es1 heq =>
    split at h
    · exact absurd h (by simp)
    · next es2 heq2 =>
      simp only [Except.ok.injEq] at h
      exact ⟨es1, es2, heq, heq2, h.symm⟩

theorem fix_seq_out {l : List Node} {m : Node}
    (h : fixExamples (.seq l) = .ok m) :
    ∃ l', fixListT l = .ok l' ∧ m = .seq l' := by
  rw [fixExamples_seq] at h
  split at h
  · exact absurd h (by simp)
  · next l' heq =>
    simp only [Except.ok.injEq] at h
    exact ⟨l', heq, h.symm⟩

theorem fix_str_out {n : Node} {s : String}
    (h : fixExamples n = .ok (.str s)) : n = .str s := by
  cases n with
  | map es =>
    obtain ⟨_, _, _, _, hm⟩ := fix_map_out h
    exact absurd hm (by simp)
  | seq l =>
    obtain ⟨_, _, hm⟩ := fix_seq_out h
    exact absurd hm (by simp)
  | str s' =>
    have : Node.str s' = Node.str s := by
      have hh : fixExamples (.str s') = .ok (.str s') := rfl
      rw [hh] at h
      simpa using h
    simpa using this
  | int i =>
    have hh : fixExamples (.int i) = .ok (.int i) := rfl
    rw [hh] at h
    simp at h
  | bool b =>
    have hh : fixExamples (.bool b) = .ok (.bool b) := rfl
    rw [hh] at h
    simp at h
  | null =>
    have hh : fixExamples Node.null = .ok .null := rfl
    rw [hh] at h
    simp at h


/-! ## Idempotence machinery -/

theorem any_str_stable {k : String} : ∀ {l l' : List Node},
    List.Forall₂ (fun x y => fixExamples x = .ok y) l l' →
    (l.any (fun x => match x with | .str s => s == k | _ => false)) = false →
    (l'.any (fun x => match x with | .str s => s == k | _ => false)) = false := by
  intro l l' hf
  induction hf with
  | nil => intro h; exact h
  | cons h1 h2 ih =>
    intro h
    simp only [List.any_cons, Bool.or_eq_false_iff] at h ⊢
    refine ⟨?_, ih h.2⟩
    next x y _ _ =>
      cases y with
      | str s =>
        have hx : x = .str s := fix_str_out h1
        rw [hx] at h
        exact h.1
      | map es => rfl
      | seq l0 => rfl
      | int i => rfl
      | bool b => rfl
      | null => rfl

/-- If the membership test of line 10 returns `false` at a node, it
still returns `false` after the node has been rewritten. -/
theorem pyContains_false_stable {sv sv2 : Node} {k : String}
    (hc : pyContains k sv = .ok false) (hf : fixExamples sv = .ok sv2) :
    pyContains k sv2 = .ok false := by
  cases sv with
  | map es =>
    obtain ⟨es1, es2, ha, hb, rfl⟩ := fix_map_out hf
    simp only [pyContains, Except.ok.injEq] at hc ⊢
    rw [hasKey_congr ((fixEntriesT_keysOf hb).trans (applyEdit_keysOf ha))]
    exact hc
  | seq l =>
    obtain ⟨l', hl, rfl⟩ := fix_seq_out hf
    simp only [pyContains, Except.ok.injEq] at hc ⊢
    exact any_str_stable (fixListT_ok hl) hc
  | str s =>
    have hh : fixExamples (.str s) = .ok (.str s) := rfl
    rw [hh, Except.ok.injEq] at hf
    rw [← hf]
    exact hc
  | int i => exact absurd hc (by simp [pyContains])
  | bool b => exact absurd hc (by simp [pyContains])
  | null => exact absurd hc (by simp [pyContains])

/-- After one pass of the edit and of the recursion on its values, the
edit has nothing left to do: the pattern of line 10 no longer fires. -/
theorem applyEdit_stable {es es1 es2 : List (String × Node)}
    (ha : applyEdit es = .ok es1) (hb : fixEntriesT es1 = .ok es2) :
    applyEdit es2 = .ok es2 := by
  have hkeys : keysOf es2 = keysOf es :=
    (fixEntriesT_keysOf hb).trans (applyEdit_keysOf ha)
  by_cases hsk2 : hasKey es2 "schema" = true
  · have hsk : hasKey es "schema" = true := by
      rw [← hasKey_congr hkeys]
      exact hsk2
    have hsk1 : hasKey es1 "schema" = true := by
      rw [hasKey_congr (applyEdit_keysOf ha)]
      exact hsk
    have hget := fixEntriesT_getKey hb hsk1
    have hfalse : pyContains "examples" (getKey es2 "schema") = .ok false := by
      rcases applyEdit_cases ha with ⟨heq, hor⟩ |
        ⟨ses, ces, ces', _, hsv, hex, hck, hcv, hrel, rfl⟩ |
        ⟨ses, _, hsv, hex, hck, rfl⟩
      · subst heq
        rcases hor with h1 | h1
        · rw [hsk] at h1
          exact absurd h1 (by simp)
        · exact pyContains_false_stable h1 hget
      · have hg1 : getKey (setKey (setKey es "schema" (.map (eraseKey ses "examples")))
            "content" (.map ces')) "schema" = .map (eraseKey ses "examples") := by
          rw [getKey_setKey_ne _ _ (by decide), getKey_setKey_self]
        rw [hg1] at hget
        have hcontains : pyContains "examples" (.map (eraseKey ses "examples")) = .ok false := by
          simp only [pyContains, Except.ok.injEq]
          exact hasKey_eraseKey_self ses "examples"
        exact pyContains_false_stable hcontains hget
      · have hg1 : getKey (setKey es "schema" (.map (eraseKey ses "examples"))) "schema"
            = .map (eraseKey ses "examples") := getKey_setKey_self es "schema" _
        rw [hg1] at hget
        have hcontains : pyContains "examples" (.map (eraseKey ses "examples")) = .ok false := by
          simp only [pyContains, Except.ok.injEq]
          exact hasKey_eraseKey_self ses "examples"
        exact pyContains_false_stable hcontains hget
    unfold applyEdit
    rw [hsk2]
    simp only [eq_self_iff_true, if_true, hfalse]
  · unfold applyEdit
    cases hv : hasKey es2 "schema" with
    | true => exact absurd hv hsk2
    | false => simp only [Bool.false_eq_true, if_false]


theorem forall2_ents_idem : ∀ {l1 l2 : List (String × Node)} {B : Nat},
    List.Forall₂ (fun p q => p.1 = q.1 ∧ fixExamples p.2 = .ok q.2) l1 l2 →
    sumMu l1 ≤ B →
    (∀ x, mu x ≤ B → ∀ v, fixExamples x = .ok v → fixExamples v = .ok v) →
    List.Forall₂ (fun p q => p.1 = q.1 ∧ fixExamples p.2 = .ok q.2) l2 l2 := by
  intro l1
  induction l1 with
  | nil =>
    intro l2 B hf _ _
    cases hf
    exact .nil
  | cons p rest ih =>
    intro l2 B hf hsum hih
    obtain ⟨k, v⟩ := p
    cases hf with
    | cons h1 h2 =>
      rename_i q l2'
      have hv := mu_pos v
      simp only [sumMu] at hsum
      refine .cons ⟨rfl, ?_⟩ (ih h2 (by omega) hih)
      exact hih v (by omega) q.2 h1.2

theorem forall2_list_idem : ∀ {l1 l2 : List Node} {B : Nat},
    List.Forall₂ (fun x y => fixExamples x = .ok y) l1 l2 →
    muList l1 ≤ B →
    (∀ x, mu x ≤ B → ∀ v, fixExamples x = .ok v → fixExamples v = .ok v) →
    List.Forall₂ (fun x y => fixExamples x = .ok y) l2 l2 := by
  intro l1
  induction l1 with
  | nil =>
    intro l2 B hf _ _
    cases hf
    exact .nil
  | cons x rest ih =>
    intro l2 B hf hsum hih
    cases hf with
    | cons h1 h2 =>
      rename_i y l2'
      have hx := mu_pos x
      simp only [muList] at hsum
      refine .cons ?_ (ih h2 (by omega) hih)
      exact hih x (by omega) y h1

/-- Applying the rewrite to its own successful output is the identity. -/
theorem fixExamples_idem : ∀ {n m : Node}, fixExamples n = .ok m → fixExamples m = .ok m := by
  have main : ∀ n, ∀ m, fixExamples n = .ok m → fixExamples m = .ok m := by
    refine mu_induction (fun n => ∀ m, fixExamples n = .ok m → fixExamples m = .ok m) ?_
    intro n ih m h
    cases n with
    | map es =>
      obtain ⟨es1, es2, ha, hb, rfl⟩ := fix_map_out h
      have hlt := applyEdit_sumMu ha
      have hstable := applyEdit_stable ha hb
      have hself : fixEntriesT es2 = .ok es2 := by
        apply fixEntriesT_of_forall
        refine forall2_ents_idem (B := sumMu es1) (fixEntriesT_ok hb) (Nat.le_refl _) ?_
        intro x hx v hv
        exact ih x (by omega) v hv
      rw [fixExamples_map]
      simp only [hstable, hself]
    | seq l =>
      obtain ⟨l', hl, rfl⟩ := fix_seq_out h
      have hself : fixListT l' = .ok l' := by
        apply fixListT_of_forall
        refine forall2_list_idem (B := muList l) (fixListT_ok hl) (Nat.le_refl _) ?_
        intro x hx v hv
        refine ih x ?_ v hv
        simp only [mu]
        omega
      rw [fixExamples_seq]
      simp only [hself]
    | str s =>
      have hh : fixExamples (.str s) = .ok (.str s) := rfl
      rw [hh, Except.ok.injEq] at h
      rw [← h]
      rfl
    | int i =>
      have hh : fixExamples (.int i) = .ok (.int i) := rfl
      rw [hh, Except.ok.injEq] at h
      rw [← h]
      rfl
    | bool b =>
      have hh : fixExamples (.bool b) = .ok (.bool b) := rfl
      rw [hh, Except.ok.injEq] at h
      rw [← h]
      rfl
    | null =>
      have hh : fixExamples Node.null = .ok .null := rfl
      rw [hh, Except.ok.injEq] at h
      rw [← h]
      rfl
  exact fun {n m} h => main n m h


/-! ## The key skeleton: order and key preservation (claim C4) -/

mutual

/-- The key skeleton of a tree: every mapping keeps its non-`examples`
entries in order (values skeletonized), sequences keep their shape and
scalars are kept; `examples` entries are erased everywhere.  Equality of
skeletons states that the set and order of keys is untouched at every
mapping, apart from `examples` entries, and that scalars are unchanged. -/
def keySkel : Node → Node
  | .map es => .map (skelEnts es)
  | .seq l => .seq (skelList l)
  | n => n

/-- `keySkel` on the entries of a mapping. -/
def skelEnts : List (String × Node) → List (String × Node)
  | [] => []
  | (k, v) :: rest =>
    if k == "examples" then skelEnts rest else (k, keySkel v) :: skelEnts rest

/-- `keySkel` on the elements of a sequence. -/
def skelList : List Node → List Node
  | [] => []
  | x :: rest => keySkel x :: skelList rest

end

theorem skelEnts_setKey_examples (l : List (String × Node)) (v : Node) :
    skelEnts (setKey l "examples" v) = skelEnts l := by
  induction l with
  | nil => simp [setKey, skelEnts]
  | cons p rest ih =>
    obtain ⟨k0, v0⟩ := p
    by_cases hp : k0 = "examples"
    · subst hp
      simp [setKey, skelEnts]
    · simp only [setKey, beq_iff_eq, if_neg hp, skelEnts, ih]

theorem skelEnts_eraseKey_examples (l : List (String × Node)) :
    skelEnts (eraseKey l "examples") = skelEnts l := by
  induction l with
  | nil => rfl
  | cons p rest ih =>
    obtain ⟨k0, v0⟩ := p
    by_cases hp : k0 = "examples"
    · subst hp
      rw [eraseKey_cons_self]
      simp only [skelEnts, beq_self_eq_true, if_true]
      exact ih
    · rw [eraseKey_cons_ne v0 rest hp]
      simp only [skelEnts, beq_iff_eq, if_neg hp, ih]

theorem skelEnts_setKey_congr {l : List (String × Node)} {k : String} {v : Node}
    (hk : hasKey l k = true) (hv : keySkel v = keySkel (getKey l k)) :
    skelEnts (setKey l k v) = skelEnts l := by
  induction l with
  | nil => simp [hasKey] at hk
  | cons p rest ih =>
    obtain ⟨k0, v0⟩ := p
    by_cases hp : k0 = k
    · subst hp
      simp only [getKey, beq_self_eq_true, if_true] at hv
      by_cases he : k0 = "examples"
      · subst he
        simp [setKey, skelEnts]
      · simp only [setKey, beq_self_eq_true, if_true, skelEnts, beq_iff_eq, if_neg he, hv]
    · have hk := hasKey_cons_ne hp hk
      have hv' : keySkel v = keySkel (getKey rest k) := by
        rw [hv]
        simp only [getKey, beq_iff_eq, if_neg hp]
      simp only [setKey, beq_iff_eq, if_neg hp, skelEnts, ih hk hv']

theorem relocate_skelEnts {ev : Node} :
    ∀ {ces ces' : List (String × Node)}, relocate ev ces = .ok ces' →
      skelEnts ces' = skelEnts ces := by
  intro ces
  induction ces with
  | nil =>
    intro ces' h
    simp only [relocate, Except.ok.injEq] at h
    rw [← h]
  | cons p rest ih =>
    intro ces' h
    obtain ⟨k, ct⟩ := p
    obtain ⟨b, ct', rest', hc, hs, hr, rfl⟩ := relocate_cons_ok h
    have hct : keySkel ct' = keySkel ct := by
      rcases relocStep_ok hc hs with ⟨_, rfl⟩ | ⟨_, cts, rfl, _, rfl⟩
      · rfl
      · simp only [keySkel, skelEnts_setKey_examples]
    by_cases hk : k = "examples"
    · subst hk
      simp only [skelEnts, beq_self_eq_true, if_true]
      exact ih hr
    · simp only [skelEnts, beq_iff_eq, if_neg hk, hct, ih hr]

theorem applyEdit_skelEnts {es es1 : List (String × Node)}
    (h : applyEdit es = .ok es1) : skelEnts es1 = skelEnts es := by
  rcases applyEdit_cases h with ⟨heq, _⟩ |
    ⟨ses, ces, ces', hsk, hsv, hex, hck, hcv, hrel, rfl⟩ |
    ⟨ses, hsk, hsv, hex, hck, rfl⟩
  · rw [heq]
  · have hskel1 : keySkel (.map (eraseKey ses "examples")) = keySkel (getKey es "schema") := by
      rw [hsv]
      simp only [keySkel, skelEnts_eraseKey_examples]
    have hck' : hasKey (setKey es "schema" (.map (eraseKey ses "examples"))) "content" = true := by
      rw [hasKey_setKey_ne es _ (by decide)]
      exact hck
    have hgc' : getKey (setKey es "schema" (.map (eraseKey ses "examples"))) "content" = .map ces := by
      rw [getKey_setKey_ne es _ (by decide)]
      exact hcv
    have hskel2 : keySkel (.map ces') = keySkel
        (getKey (setKey es "schema" (.map (eraseKey ses "examples"))) "content") := by
      rw [hgc']
      simp only [keySkel, relocate_skelEnts hrel]
    rw [skelEnts_setKey_congr hck' hskel2, skelEnts_setKey_congr hsk hskel1]
  · rw [skelEnts_setKey_congr hsk (by rw [hsv]; simp only [keySkel, skelEnts_eraseKey_examples])]

theorem forall2_skelEnts : ∀ {l1 l2 : List (String × Node)} {B : Nat},
    List.Forall₂ (fun p q => p.1 = q.1 ∧ fixExamples p.2 = .ok q.2) l1 l2 →
    sumMu l1 ≤ B →
    (∀ x, mu x ≤ B → ∀ v, fixExamples x = .ok v → keySkel v = keySkel x) →
    skelEnts l2 = skelEnts l1 := by
  intro l1
  induction l1 with
  | nil =>
    intro l2 B hf _ _
    cases hf
    rfl
  | cons p rest ih =>
    intro l2 B hf hsum hih
    obtain ⟨k, v⟩ := p
    cases hf with
    | cons h1 h2 =>
      rename_i q l2'
      obtain ⟨k', v'⟩ := q
      obtain ⟨hk, hv⟩ := h1
      simp only at hk
      subst hk
      have hmv := mu_pos v
      simp only [sumMu] at hsum
      have hskel : keySkel v' = keySkel v := hih v (by omega) v' hv
      by_cases he : k = "examples"
      · subst he
        simp only [skelEnts, beq_self_eq_true, if_true]
        exact ih h2 (by omega) hih
      · simp only [skelEnts, beq_iff_eq, if_neg he, hskel, ih h2 (by omega) hih]

theorem forall2_skelList : ∀ {l1 l2 : List Node} {B : Nat},
    List.Forall₂ (fun x y => fixExamples x = .ok y) l1 l2 →
    muList l1 ≤ B →
    (∀ x, mu x ≤ B → ∀ v, fixExamples x = .ok v → keySkel v = keySkel x) →
    skelList l2 = skelList l1 := by
  intro l1
  induction l1 with
  | nil =>
    intro l2 B hf _ _
    cases hf
    rfl
  | cons x rest ih =>
    intro l2 B hf hsum hih
    cases hf with
    | cons h1 h2 =>
      rename_i y l2'
      have hmx := mu_pos x
      simp only [muList] at hsum
      simp only [skelList, hih x (by omega) y h1, ih h2 (by omega) hih]

/-- The rewrite never changes the key skeleton: no key but `examples`
is added or removed anywhere, sibling order is kept everywhere, and
scalars are unchanged. -/
theorem fixExamples_keySkel : ∀ {n m : Node}, fixExamples n = .ok m → keySkel m = keySkel n := by
  have main : ∀ n, ∀ m, fixExamples n = .ok m → keySkel m = keySkel n := by
    refine mu_induction (fun n => ∀ m, fixExamples n = .ok m → keySkel m = keySkel n) ?_
    intro n ih m h
    cases n with
    | map es =>
      obtain ⟨es1, es2, ha, hb, rfl⟩ := fix_map_out h
      have hlt := applyEdit_sumMu ha
      have h2 : skelEnts es2 = skelEnts es1 := by
        refine forall2_skelEnts (B := sumMu es1) (fixEntriesT_ok hb) (Nat.le_refl _) ?_
        intro x hx v hv
        exact ih x (by omega) v hv
      simp only [keySkel, h2, applyEdit_skelEnts ha]
    | seq l =>
      obtain ⟨l', hl, rfl⟩ := fix_seq_out h
      have h2 : skelList l' = skelList l := by
        refine forall2_skelList (B := muList l) (fixListT_ok hl) (Nat.le_refl _) ?_
        intro x hx v hv
        refine ih x ?_ v hv
        simp only [mu]
        omega
      simp only [keySkel, h2]
    | str s =>
      have hh : fixExamples (.str s) = .ok (.str s) := rfl
      rw [hh, Except.ok.injEq] at h
      rw [← h]
    | int i =>
      have hh : fixExamples (.int i) = .ok (.int i) := rfl
      rw [hh, Except.ok.injEq] at h
      rw [← h]
    | bool b =>
      have hh : fixExamples (.bool b) = .ok (.bool b) := rfl
      rw [hh, Except.ok.injEq] at h
      rw [← h]
    | null =>
      have hh : fixExamples Node.null = .ok .null := rfl
      rw [hh, Except.ok.injEq] at h
      rw [← h]
  exact fun {n m} h => main n m h


/-! ## Trees on which the rewrite is the identity (claim C5) -/

/-- The test of line 10 of the source, with Python's short-circuit:
`'schema' in data and 'examples' in data['schema']`. -/
def trigTest (es : List (String × Node)) : Except PyError Bool :=
  if hasKey es "schema" then pyContains "examples" (getKey es "schema") else .ok false

mutual

/-- `noTrig n` holds when at every mapping node of `n` the test of
line 10 evaluates, without an exception, to `false`: no node has a
`schema` entry whose value contains `examples` (in the Python `in`
sense), and no `schema` value is a non-iterable scalar. -/
def noTrig : Node → Bool
  | .map es =>
    (match trigTest es with
    | .ok false => true
    | _ => false) && noTrigEnts es
  | .seq l => noTrigList l
  | _ => true

/-- `noTrig` on every value of a mapping. -/
def noTrigEnts : List (String × Node) → Bool
  | [] => true
  | (_, v) :: rest => noTrig v && noTrigEnts rest

/-- `noTrig` on every element of a sequence. -/
def noTrigList : List Node → Bool
  | [] => true
  | x :: rest => noTrig x && noTrigList rest

end

theorem applyEdit_of_trigTest_false {es : List (String × Node)}
    (h : trigTest es = .ok false) : applyEdit es = .ok es := by
  unfold trigTest at h
  unfold applyEdit
  cases hsk : hasKey es "schema" with
  | false => simp only [Bool.false_eq_true, if_false]
  | true =>
    rw [hsk] at h
    simp only [eq_self_iff_true, if_true] at h ⊢
    rw [h]

theorem noTrig_fixEntriesT : ∀ {l : List (String × Node)} {B : Nat},
    noTrigEnts l = true → sumMu l ≤ B →
    (∀ x, mu x ≤ B → noTrig x = true → fixExamples x = .ok x) →
    fixEntriesT l = .ok l := by
  intro l
  induction l with
  | nil => intro B _ _ _; rfl
  | cons p rest ih =>
    intro B h hsum hih
    obtain ⟨k, v⟩ := p
    simp only [noTrigEnts, Bool.and_eq_true] at h
    have hmv := mu_pos v
    simp only [sumMu] at hsum
    have hv : fixExamples v = .ok v := hih v (by omega) h.1
    have hrest : fixEntriesT rest = .ok rest := ih h.2 (by omega) hih
    simp only [fixEntriesT, hv, hrest]

theorem noTrig_fixListT : ∀ {l : List Node} {B : Nat},
    noTrigList l = true → muList l ≤ B →
    (∀ x, mu x ≤ B → noTrig x = true → fixExamples x = .ok x) →
    fixListT l = .ok l := by
  intro l
  induction l with
  | nil => intro B _ _ _; rfl
  | cons x rest ih =>
    intro B h hsum hih
    simp only [noTrigList, Bool.and_eq_true] at h
    have hmx := mu_pos x
    simp only [muList] at hsum
    have hx : fixExamples x = .ok x := hih x (by omega) h.1
    have hrest : fixListT rest = .ok rest := ih h.2 (by omega) hih
    simp only [fixListT, hx, hrest]

/-- On a tree where the test of line 10 returns `false` at every
mapping node, the rewrite is the identity. -/
theorem fixExamples_noTrig : ∀ {n : Node}, noTrig n = true → fixExamples n = .ok n := by
  have main : ∀ n, noTrig n = true → fixExamples n = .ok n := by
    refine mu_induction (fun n => noTrig n = true → fixExamples n = .ok n) ?_
    intro n ih h
    cases n with
    | map es =>
      simp only [noTrig, Bool.and_eq_true] at h
      have htrig : trigTest es = .ok false := by
        rcases h with ⟨h1, _⟩
        cases ht : trigTest es with
        | error e => rw [ht] at h1; simp at h1
        | ok b =>
          cases b with
          | false => rfl
          | true => rw [ht] at h1; simp at h1
      have ha : applyEdit es = .ok es := applyEdit_of_trigTest_false htrig
      have hlt := applyEdit_sumMu ha
      have hents : fixEntriesT es = .ok es := by
        refine noTrig_fixEntriesT (B := sumMu es) h.2 (Nat.le_refl _) ?_
        intro x hx hnx
        exact ih x (by omega) hnx
      rw [fixExamples_map]
      simp only [ha, hents]
    | seq l =>
      simp only [noTrig] at h
      have hlist : fixListT l = .ok l := by
        refine noTrig_fixListT (B := muList l) h (Nat.le_refl _) ?_
        intro x hx hnx
        refine ih x ?_ hnx
        simp only [mu]
        omega
      rw [fixExamples_seq]
      simp only [hlist]
    | str s => rfl
    | int i => rfl
    | bool b => rfl
    | null => rfl
  exact fun {n} h => main n h


/-! ## The trigger path of the edit, in closed form -/

theorem getKey_eraseKey_ne {l : List (String × Node)} {k k' : String}
    (h : k' ≠ k) : getKey (eraseKey l k) k' = getKey l k' := by
  induction l with
  | nil => rfl
  | cons p rest ih =>
    obtain ⟨k0, v0⟩ := p
    by_cases hp : k0 = k
    · subst hp
      rw [eraseKey_cons_self]
      simp only [getKey, beq_iff_eq, if_neg (Ne.symm h)]
      exact ih
    · rw [eraseKey_cons_ne v0 rest hp]
      by_cases hq : k0 = k'
      · subst hq
        simp [getKey]
      · simp only [getKey, beq_iff_eq, if_neg hq, ih]

/-- The edit on a triggered node with a `content` mapping, in closed
form. -/
theorem applyEdit_trigger {es ses ces ces' : List (String × Node)}
    (hsk : hasKey es "schema" = true) (hsv : getKey es "schema" = .map ses)
    (hex : hasKey ses "examples" = true)
    (hck : hasKey es "content" = true) (hcv : getKey es "content" = .map ces)
    (hrel : relocate (getKey ses "examples") ces = .ok ces') :
    applyEdit es = .ok (setKey (setKey es "schema" (.map (eraseKey ses "examples")))
      "content" (.map ces')) := by
  unfold applyEdit
  rw [hsk]
  simp only [eq_self_iff_true, if_true]
  rw [hsv]
  simp only [pyContains, hex, pyPop, eq_self_iff_true, if_true]
  rw [hasKey_setKey_ne es _ (by decide), hck]
  simp only [eq_self_iff_true, if_true]
  rw [getKey_setKey_ne es _ (by decide), hcv]
  simp only [hrel]

/-- The edit on a triggered node without a `content` key: the
`examples` entry is removed and the detached value is dropped. -/
theorem applyEdit_nocontent {es ses : List (String × Node)}
    (hsk : hasKey es "schema" = true) (hsv : getKey es "schema" = .map ses)
    (hex : hasKey ses "examples" = true)
    (hck : hasKey es "content" = false) :
    applyEdit es = .ok (setKey es "schema" (.map (eraseKey ses "examples"))) := by
  unfold applyEdit
  rw [hsk]
  simp only [eq_self_iff_true, if_true]
  rw [hsv]
  simp only [pyContains, hex, pyPop, eq_self_iff_true, if_true]
  rw [hasKey_setKey_ne es _ (by decide), hck]
  simp only [Bool.false_eq_true, if_false]

/-- The edit skips the node when the test of line 10 comes out
`false`. -/
theorem applyEdit_skip {es : List (String × Node)}
    (h : hasKey es "schema" = false ∨
      pyContains "examples" (getKey es "schema") = .ok false) :
    applyEdit es = .ok es := by
  apply applyEdit_of_trigTest_false
  unfold trigTest
  rcases h with h1 | h1
  · rw [h1]
    simp only [Bool.false_eq_true, if_false]
  · cases hsk : hasKey es "schema" with
    | false => simp only [Bool.false_eq_true, if_false]
    | true =>
      simp only [eq_self_iff_true, if_true]
      exact h1

/-- `relocate` on a list whose membership tests all fail is the
identity. -/
theorem relocate_id_of_false {ev : Node} :
    ∀ {ces : List (String × Node)},
      (∀ p ∈ ces, pyContains "schema" p.2 = .ok false) →
      relocate ev ces = .ok ces := by
  intro ces
  induction ces with
  | nil => intro _; rfl
  | cons p rest ih =>
    intro h
    obtain ⟨k, ct⟩ := p
    have hc : pyContains "schema" ct = .ok false := h (k, ct) (by simp)
    have hrest := ih (fun q hq => h q (by simp [hq]))
    simp only [relocate, hc, Bool.false_eq_true, if_false, hrest]

/-- `relocate` on a list of mapping values always succeeds, setting
`examples` on exactly the entries that contain a `schema` key. -/
theorem relocate_all_maps (ev : Node) :
    ∀ {ces : List (String × Node)},
      (∀ p ∈ ces, ∃ cts, p.2 = Node.map cts) →
      ∃ ces', relocate ev ces = .ok ces' ∧
        ∀ (i : Nat) (k : String) (cts : List (String × Node)),
          ces[i]? = some (k, Node.map cts) →
          (hasKey cts "schema" = true →
            ces'[i]? = some (k, Node.map (setKey cts "examples" ev))) ∧
          (hasKey cts "schema" = false → ces'[i]? = some (k, Node.map cts)) := by
  intro ces
  induction ces with
  | nil =>
    intro _
    refine ⟨[], rfl, ?_⟩
    intro i k cts h
    simp at h
  | cons p rest ih =>
    intro h
    obtain ⟨k0, ct⟩ := p
    obtain ⟨cts0, hct⟩ := h (k0, ct) (by simp)
    simp only at hct
    subst hct
    obtain ⟨rest', hrest, hspec⟩ := ih (fun q hq => h q (by simp [hq]))
    refine ⟨(k0, if hasKey cts0 "schema" then Node.map (setKey cts0 "examples" ev)
      else Node.map cts0) :: rest', ?_, ?_⟩
    · cases hb : hasKey cts0 "schema" with
      | true =>
        simp only [relocate, pyContains, hb, pySetItem, eq_self_iff_true, if_true, hrest]
      | false =>
        simp only [relocate, pyContains, hb, Bool.false_eq_true, if_false, hrest]
    · intro i k cts hi
      cases i with
      | zero =>
        simp only [List.getElem?_cons_zero, Option.some.injEq, Prod.mk.injEq,
          Node.map.injEq] at hi
        obtain ⟨rfl, rfl⟩ := hi
        constructor
        · intro hb
          simp only [hb, if_true, List.getElem?_cons_zero]
        · intro hb
          simp only [hb, Bool.false_eq_true, if_false, List.getElem?_cons_zero]
      | succ i =>
        simp only [List.getElem?_cons_succ] at hi ⊢
        exact hspec i k cts hi

/-- Pointwise description of a successful `relocate`: an entry that is
a mapping with a `schema` key receives the detached value at
`examples`, in place. -/
theorem relocate_get {ev : Node} :
    ∀ {ces ces' : List (String × Node)}, relocate ev ces = .ok ces' →
      ∀ {i : Nat} {k : String} {cts : List (String × Node)},
        ces[i]? = some (k, Node.map cts) → hasKey cts "schema" = true →
        ces'[i]? = some (k, Node.map (setKey cts "examples" ev)) := by
  intro ces
  induction ces with
  | nil =>
    intro ces' h i k cts hi
    simp at hi
  | cons p rest ih =>
    intro ces' h i k cts hi hb
    obtain ⟨k0, ct⟩ := p
    obtain ⟨b, ct', rest', hc, hs, hr, rfl⟩ := relocate_cons_ok h
    cases i with
    | zero =>
      simp only [List.getElem?_cons_zero, Option.some.injEq, Prod.mk.injEq] at hi
      obtain ⟨rfl, rfl⟩ := hi
      simp only [pyContains, Except.ok.injEq] at hc
      rw [← hc] at hs
      rw [if_pos hb] at hs
      simp only [pySetItem, Except.ok.injEq] at hs
      simp only [List.getElem?_cons_zero, Option.some.injEq, Prod.mk.injEq, ← hs]

    | succ i =>
      simp only [List.getElem?_cons_succ] at hi ⊢
      exact ih hr hi hb


/-! ## The claims -/

/-- Concrete input for the C1 witness: the `schema` mapping. -/
def c1ses : List (String × Node) := [("type", .str "object"), ("examples", .int 7)]

/-- Concrete input for the C1 witness: the `content` mapping. -/
def c1ces : List (String × Node) :=
  [("application/json", .map [("schema", .null)]), ("text/plain", .map [("note", .int 1)])]

/-- Concrete input for the C1 witness: the full node. -/
def c1es : List (String × Node) := [("schema", .map c1ses), ("content", .map c1ces)]

/-- Claim C1 (amended): at a mapping node whose `schema` value is a
mapping containing `examples` and whose `content` value is a mapping
all of whose values are themselves mappings, the edit step of lines
10–16 removes `examples` from the `schema` mapping (the rest of the
schema unchanged), and sets `examples` to the detached value on every
content value that contains a `schema` key, leaving content values
without a `schema` key unchanged.  The restriction to mapping content
values is forced: a non-mapping content value makes `'schema' in
content_type` raise instead of being left unchanged. -/
theorem C1_relocation (es ses ces : List (String × Node))
    (hsk : hasKey es "schema" = true) (hsv : getKey es "schema" = .map ses)
    (hex : hasKey ses "examples" = true)
    (hck : hasKey es "content" = true) (hcv : getKey es "content" = .map ces)
    (hall : ∀ p ∈ ces, ∃ cts, p.2 = Node.map cts) :
    ∃ ces',
      applyEdit es = .ok (setKey (setKey es "schema" (.map (eraseKey ses "examples")))
        "content" (.map ces')) ∧
      hasKey (eraseKey ses "examples") "examples" = false ∧
      (∀ k', k' ≠ "examples" → getKey (eraseKey ses "examples") k' = getKey ses k') ∧
      (∀ (i : Nat) (k : String) (cts : List (String × Node)),
        ces[i]? = some (k, Node.map cts) →
        (hasKey cts "schema" = true →
          ces'[i]? = some (k, Node.map (setKey cts "examples" (getKey ses "examples")))) ∧
        (hasKey cts "schema" = false → ces'[i]? = some (k, Node.map cts))) := by
  obtain ⟨ces', hrel, hspec⟩ := relocate_all_maps (getKey ses "examples") hall
  exact ⟨ces', applyEdit_trigger hsk hsv hex hck hcv hrel,
    hasKey_eraseKey_self ses "examples",
    fun k' hk' => getKey_eraseKey_ne hk', hspec⟩

/-- The claim C1 as frozen is false: a `content` value that is not a
mapping (here the number `5`) makes the rewrite raise `TypeError`
instead of returning the node with the entry left unchanged. -/
theorem C1_relocation_cx :
    fixExamples (.map [("schema", .map [("examples", .null)]),
      ("content", .map [("a", .int 5)])]) = .error .typeError := rfl

/-- Witness for `C1_relocation` at a concrete node. -/
theorem C1_relocation_witness :
    (hasKey c1es "schema" = true ∧ getKey c1es "schema" = .map c1ses ∧
     hasKey c1ses "examples" = true ∧ hasKey c1es "content" = true ∧
     getKey c1es "content" = .map c1ces ∧
     (∀ p ∈ c1ces, ∃ cts, p.2 = Node.map cts)) ∧
    (∃ ces',
      applyEdit c1es = .ok (setKey (setKey c1es "schema" (.map (eraseKey c1ses "examples")))
        "content" (.map ces')) ∧
      hasKey (eraseKey c1ses "examples") "examples" = false ∧
      (∀ k', k' ≠ "examples" → getKey (eraseKey c1ses "examples") k' = getKey c1ses k') ∧
      (∀ (i : Nat) (k : String) (cts : List (String × Node)),
        c1ces[i]? = some (k, Node.map cts) →
        (hasKey cts "schema" = true →
          ces'[i]? = some (k, Node.map (setKey cts "examples" (getKey c1ses "examples")))) ∧
        (hasKey cts "schema" = false → ces'[i]? = some (k, Node.map cts)))) := by
  have hall : ∀ p ∈ c1ces, ∃ cts, p.2 = Node.map cts := by
    intro p hp
    simp only [c1ces, List.mem_cons, List.not_mem_nil, or_false] at hp
    rcases hp with rfl | rfl
    · exact ⟨_, rfl⟩
    · exact ⟨_, rfl⟩
  exact ⟨⟨rfl, rfl, rfl, rfl, rfl, hall⟩,
    C1_relocation c1es c1ses c1ces rfl rfl rfl rfl rfl hall⟩

/-- Concrete input for the C2 witness. -/
def c2es : List (String × Node) := [("schema", .map [("type", .str "object")])]

/-- Claim C2 (amended): the relocation branch is skipped, raising no
exception, at every node where the membership test of line 10 comes out
false — no `schema` key, or a `schema` value on which `'examples' in …`
returns `False` (a mapping without the key, a string without the
substring, a sequence without the element).  As frozen the claim is
false: a `schema` value that is a number, boolean or null makes the
membership test itself raise `TypeError`, so malformed nodes can crash
the rewrite rather than being skipped. -/
theorem C2_skip (es : List (String × Node))
    (h : hasKey es "schema" = false ∨
      pyContains "examples" (getKey es "schema") = .ok false) :
    applyEdit es = .ok es :=
  applyEdit_skip h

/-- The claim C2 as frozen is false: a node whose `schema` value is the
number `1` (not a mapping) raises `TypeError` instead of being
skipped. -/
theorem C2_skip_cx :
    fixExamples (.map [("schema", .int 1)]) = .error .typeError := rfl

/-- Witness for `C2_skip` at a concrete node. -/
theorem C2_skip_witness :
    (hasKey c2es "schema" = false ∨
      pyContains "examples" (getKey c2es "schema") = .ok false) ∧
    applyEdit c2es = .ok c2es :=
  ⟨Or.inr rfl, C2_skip c2es (Or.inr rfl)⟩

/-- Concrete input for the C3 witness. -/
def c3n : Node := .map
  [("schema", .map [("examples", .map [("sample", .int 1)]), ("type", .str "object")]),
   ("content", .map [("application/json", .map [("schema", .map [("type", .str "object")])])])]

/-- Output of the rewrite on `c3n`. -/
def c3m : Node := .map
  [("schema", .map [("type", .str "object")]),
   ("content", .map [("application/json", .map [("schema", .map [("type", .str "object")]),
     ("examples", .map [("sample", .int 1)])])])]

/-- Claim C3: the rewrite is idempotent — applying `fix_examples` to
its own successful output returns that output unchanged, because no
`schema` mapping in the output still contains an `examples` key. -/
theorem C3_idempotent {n m : Node} (h : fixExamples n = .ok m) :
    fixExamples m = .ok m :=
  fixExamples_idem h

/-- Witness for `C3_idempotent` on the spec's end-to-end example. -/
theorem C3_idempotent_witness :
    fixExamples c3n = .ok c3m ∧ fixExamples c3m = .ok c3m :=
  ⟨rfl, C3_idempotent (n := c3n) rfl⟩

/-- Concrete input for the C4 witness. -/
def c4n : Node := .seq [.map [("other", .int 2), ("schema", .map [("examples", .int 3)])], .int 5]

/-- Output of the rewrite on `c4n`. -/
def c4m : Node := .seq [.map [("other", .int 2), ("schema", .map [])], .int 5]

/-- Claim C4: the rewrite preserves the key skeleton of the tree — at
every mapping the set and relative order of keys is unchanged except
for the relocation of `examples` entries, no key other than `examples`
is ever added or deleted anywhere, and scalars and sequence shapes are
kept. -/
theorem C4_keys {n m : Node} (h : fixExamples n = .ok m) :
    keySkel m = keySkel n :=
  fixExamples_keySkel h

/-- Witness for `C4_keys` at a concrete tree. -/
theorem C4_keys_witness :
    fixExamples c4n = .ok c4m ∧ keySkel c4m = keySkel c4n :=
  ⟨rfl, C4_keys (n := c4n) rfl⟩

/-- Concrete input for the C5 witness. -/
def c5n : Node := .map [("paths", .seq [.map [("schema", .map [("type", .str "object")])]])]

/-- Claim C5 (amended): on every tree in which, at every mapping node,
the line-10 test evaluates without exception to false — there is no
`schema` key, or the `schema` value is a mapping without `examples`, a
string not containing the substring `examples`, or a sequence not
containing the element `"examples"` — the rewrite returns the tree
unchanged.  As frozen the claim is false: a tree with no
schema-with-`examples` pattern can still crash the rewrite, e.g. when a
`schema` value is a bare string. -/
theorem C5_identity (n : Node) (h : noTrig n = true) : fixExamples n = .ok n :=
  fixExamples_noTrig h

/-- The claim C5 as frozen is false: this tree contains no mapping node
matching the schema-with-`examples` pattern (its `schema` value is a
string, not a mapping), yet the rewrite raises `AttributeError` instead
of returning it unchanged. -/
theorem C5_identity_cx :
    fixExamples (.map [("schema", .str "examples")]) = .error .attributeError := rfl

/-- Witness for `C5_identity` at a concrete tree. -/
theorem C5_identity_witness :
    noTrig c5n = true ∧ fixExamples c5n = .ok c5n :=
  ⟨rfl, C5_identity c5n rfl⟩

/-- Concrete input for the C6 witness: the `schema` mapping. -/
def c6ses : List (String × Node) := [("examples", .seq [.int 1]), ("desc", .str "d")]

/-- Concrete input for the C6 witness: the full node (no `content`). -/
def c6es : List (String × Node) := [("schema", .map c6ses), ("other", .null)]

/-- Claim C6 (amended): at a mapping node whose `schema` value is a
mapping containing `examples` and which has no `content` key, the edit
removes `examples` from the `schema` mapping, discards the detached
value, and raises no error.  As frozen the claim is false on its other
disjunct: when `content` is present but not a mapping, the call
`data['content'].values()` raises `AttributeError` instead of quietly
discarding the value. -/
theorem C6_missing_content (es ses : List (String × Node))
    (hsk : hasKey es "schema" = true) (hsv : getKey es "schema" = .map ses)
    (hex : hasKey ses "examples" = true)
    (hck : hasKey es "content" = false) :
    applyEdit es = .ok (setKey es "schema" (.map (eraseKey ses "examples"))) :=
  applyEdit_nocontent hsk hsv hex hck

/-- The claim C6 as frozen is false: with `content` present but equal
to the number `0`, the rewrite raises `AttributeError` rather than
dropping the detached value without error. -/
theorem C6_missing_content_cx :
    fixExamples (.map [("schema", .map [("examples", .null)]), ("content", .int 0)])
      = .error .attributeError := rfl

/-- Witness for `C6_missing_content` at a concrete node. -/
theorem C6_missing_content_witness :
    (hasKey c6es "schema" = true ∧ getKey c6es "schema" = .map c6ses ∧
     hasKey c6ses "examples" = true ∧ hasKey c6es "content" = false) ∧
    applyEdit c6es = .ok (setKey c6es "schema" (.map (eraseKey c6ses "examples"))) :=
  ⟨⟨rfl, rfl, rfl, rfl⟩, C6_missing_content c6es c6ses rfl rfl rfl rfl⟩

/-- Concrete input for the C7 witness. -/
def c7n : Node := .map
  [("schema", .map [("examples", .int 7)]),
   ("content", .map [("a", .map [("schema", .map [("type", .str "s")])])])]

/-- Output of the rewrite on `c7n`. -/
def c7m : Node := .map
  [("schema", .map []),
   ("content", .map [("a", .map [("schema", .map [("type", .str "s")]), ("examples", .int 7)])])]

/-- Claim C7: the relocation applies at every depth — a node embedded
at any position of a sequence, or as the value of any non-`schema` key
of a mapping, is rewritten exactly as it would be standalone, and the
traversal always visits every child (the surrounding siblings are each
rewritten on their own), regardless of whether the pattern matched at
the wrapper. -/
theorem C7_depth (pre post pre' post' : List Node) (k : String) (n m : Node)
    (hn : fixExamples n = .ok m)
    (hpre : fixListT pre = .ok pre') (hpost : fixListT post = .ok post') :
    fixExamples (.seq (pre ++ n :: post)) = .ok (.seq (pre' ++ m :: post')) ∧
    (k ≠ "schema" → fixExamples (.map [(k, n)]) = .ok (.map [(k, m)])) := by
  constructor
  · have hlist : fixListT (pre ++ n :: post) = .ok (pre' ++ m :: post') :=
      fixListT_of_forall (List.rel_append (fixListT_ok hpre)
        (List.Forall₂.cons hn (fixListT_ok hpost)))
    rw [fixExamples_seq]
    simp only [hlist]
  · intro hk
    have ha : applyEdit [(k, n)] = .ok [(k, n)] := by
      apply applyEdit_skip
      left
      simp [hasKey, hk]
    have hents : fixEntriesT [(k, n)] = .ok [(k, m)] := by
      simp only [fixEntriesT, hn]
    rw [fixExamples_map]
    simp only [ha, hents]

/-- Witness for `C7_depth`: a matching node nested inside a sequence
and inside a wrapper mapping. -/
theorem C7_depth_witness :
    fixExamples c7n = .ok c7m ∧
    fixListT [Node.int 0] = .ok [Node.int 0] ∧
    fixListT [Node.str "x"] = .ok [Node.str "x"] ∧
    (fixExamples (.seq ([Node.int 0] ++ c7n :: [Node.str "x"]))
        = .ok (.seq ([Node.int 0] ++ c7m :: [Node.str "x"])) ∧
      ("item" ≠ "schema" →
        fixExamples (.map [("item", c7n)]) = .ok (.map [("item", c7m)]))) :=
  ⟨rfl, rfl, rfl,
    C7_depth [Node.int 0] [Node.str "x"] [Node.int 0] [Node.str "x"] "item" c7n c7m rfl rfl rfl⟩

/-- Concrete input for the C8 witness: the `schema` mapping. -/
def c8ses : List (String × Node) := [("examples", .bool true)]

/-- Concrete input for the C8 witness: the `content` mapping, none of
whose values contains a `schema` key. -/
def c8ces : List (String × Node) := [("a", .map [("x", .int 1)])]

/-- Concrete input for the C8 witness: the full node. -/
def c8es : List (String × Node) := [("schema", .map c8ses), ("content", .map c8ces)]

/-- Claim C8 (amended): at a mapping node whose `schema` value is a
mapping containing `examples` and whose `content` value is a mapping
none of whose values passes the `'schema' in …` test (in particular,
mappings without a `schema` key), the edit still removes `examples`
from the `schema` mapping, leaves the `content` mapping unchanged, and
attaches the detached value nowhere — it is silently lost, as in the
content-absent case.  The restriction to values on which the test
returns false is forced: a non-iterable content value (e.g. a number)
makes the test raise `TypeError` instead. -/
theorem C8_lost (es ses ces : List (String × Node))
    (hsk : hasKey es "schema" = true) (hsv : getKey es "schema" = .map ses)
    (hex : hasKey ses "examples" = true)
    (hck : hasKey es "content" = true) (hcv : getKey es "content" = .map ces)
    (hall : ∀ p ∈ ces, pyContains "schema" p.2 = .ok false) :
    applyEdit es = .ok (setKey (setKey es "schema" (.map (eraseKey ses "examples")))
      "content" (.map ces)) :=
  applyEdit_trigger hsk hsv hex hck hcv (relocate_id_of_false hall)

/-- The claim C8 as frozen is false: with a `content` mapping whose
value is the number `0` (so no value is a mapping containing `schema`),
the rewrite raises `TypeError` instead of completing with the value
silently lost. -/
theorem C8_lost_cx :
    fixExamples (.map [("schema", .map [("examples", .bool true)]),
      ("content", .map [("a", .int 0)])]) = .error .typeError := rfl

/-- Witness for `C8_lost` at a concrete node. -/
theorem C8_lost_witness :
    (hasKey c8es "schema" = true ∧ getKey c8es "schema" = .map c8ses ∧
     hasKey c8ses "examples" = true ∧ hasKey c8es "content" = true ∧
     getKey c8es "content" = .map c8ces ∧
     (∀ p ∈ c8ces, pyContains "schema" p.2 = .ok false)) ∧
    applyEdit c8es = .ok (setKey (setKey c8es "schema" (.map (eraseKey c8ses "examples")))
      "content" (.map c8ces)) := by
  have hall : ∀ p ∈ c8ces, pyContains "schema" p.2 = .ok false := by
    intro p hp
    simp only [c8ces, List.mem_cons, List.not_mem_nil, or_false] at hp
    subst hp
    rfl
  exact ⟨⟨rfl, rfl, rfl, rfl, rfl, hall⟩,
    C8_lost c8es c8ses c8ces rfl rfl rfl rfl rfl hall⟩

/-- Concrete input for the C9 witness: a content entry that already has
an `examples` key between two other keys. -/
def c9cts : List (String × Node) := [("schema", .null), ("examples", .int 0), ("z", .bool false)]

/-- Concrete input for the C9 witness: the `content` mapping. -/
def c9ces : List (String × Node) := [("mt", .map c9cts)]

/-- Claim C9: a content entry that is a mapping with a `schema` key and
its own `examples` key has that `examples` value overwritten with the
detached schema-level value, and the `examples` key keeps its original
position in the entry's key order (the key list is unchanged). -/
theorem C9_overwrite {ev : Node} {ces ces' : List (String × Node)}
    (hrel : relocate ev ces = .ok ces')
    {i : Nat} {k : String} {cts : List (String × Node)}
    (hi : ces[i]? = some (k, Node.map cts))
    (hsch : hasKey cts "schema" = true) (hex : hasKey cts "examples" = true) :
    ces'[i]? = some (k, Node.map (setKey cts "examples" ev)) ∧
    keysOf (setKey cts "examples" ev) = keysOf cts ∧
    getKey (setKey cts "examples" ev) "examples" = ev :=
  ⟨relocate_get hrel hi hsch, keysOf_setKey_of_hasKey _ hex, getKey_setKey_self _ _ _⟩

/-- Witness for `C9_overwrite` at a concrete content mapping. -/
theorem C9_overwrite_witness :
    (relocate (.str "E") c9ces
        = .ok [("mt", .map [("schema", .null), ("examples", .str "E"), ("z", .bool false)])] ∧
      c9ces[0]? = some ("mt", .map c9cts) ∧
      hasKey c9cts "schema" = true ∧ hasKey c9cts "examples" = true) ∧
    ([("mt", Node.map [("schema", .null), ("examples", .str "E"), ("z", .bool false)])][0]?
        = some ("mt", Node.map (setKey c9cts "examples" (.str "E"))) ∧
      keysOf (setKey c9cts "examples" (.str "E")) = keysOf c9cts ∧
      getKey (setKey c9cts "examples" (.str "E")) "examples" = .str "E") :=
  ⟨⟨rfl, rfl, rfl, rfl⟩,
    @C9_overwrite (.str "E") c9ces
      [("mt", .map [("schema", .null), ("examples", .str "E"), ("z", .bool false)])]
      rfl 0 "mt" c9cts rfl rfl rfl⟩

/-- Claim C10: `fix_examples` terminates on every finite input tree —
for every node there is a finite fuel (the weighted measure `mu`
suffices) on which the fuel-indexed evaluator of the recursion reaches
the result, so `fixExamples` is total. -/
theorem C10_terminates (n : Node) : ∃ f : Nat, fixF f n = some (fixExamples n) :=
  ⟨mu n, fixF_mu (Nat.le_refl _)⟩

end FixOpenapi
